import Mathlib

/-!
# Verification of the `htmlize` entity escaping/unescaping library

A shallow embedding of `src/escape.rs` and `src/unescape.rs`.  Bytes are
modelled as `Nat` (values < 256 in practice), byte buffers as `List Nat`.
Rust code that can panic is modelled with `Option`: `none` means the panic
fired.  The `Peekable` iterator threaded through the Rust decoder becomes
explicit state passing: each consuming function takes the remaining input
list and returns its output together with the remaining input.
-/

namespace Htmlize

/-! ## Unicode scalar values and UTF-8 encoding

Models Rust `char` (a Unicode scalar value) and the UTF-8 encoding used by
`String`/`char::to_string`. -/

/-- `n` is a Unicode scalar value (valid `char`): below `0x110000` and not a
UTF-16 surrogate. -/
def ScalarValue (n : Nat) : Prop :=
  n < 0x110000 ∧ ¬(0xD800 ≤ n ∧ n ≤ 0xDFFF)

instance : DecidablePred ScalarValue := fun n => by
  unfold ScalarValue; infer_instance

/-- Models `char::from_u32`: `some n` exactly when `n` is a scalar value. -/
def char_from_u32 (n : Nat) : Option Nat :=
  if n < 0x110000 ∧ ¬(0xD800 ≤ n ∧ n ≤ 0xDFFF) then some n else none

/-- UTF-8 encoding of a scalar value (the bytes `char::to_string` produces). -/
def utf8encode (c : Nat) : List Nat :=
  if c < 0x80 then [c]
  else if c < 0x800 then [0xC0 + c / 0x40, 0x80 + c % 0x40]
  else if c < 0x10000 then
    [0xE0 + c / 0x1000, 0x80 + (c / 0x40) % 0x40, 0x80 + c % 0x40]
  else
    [0xF0 + c / 0x40000, 0x80 + (c / 0x1000) % 0x40, 0x80 + (c / 0x40) % 0x40,
      0x80 + c % 0x40]

/-- Concatenated UTF-8 encoding of a list of scalar values. -/
def flatEnc : List Nat → List Nat
  | [] => []
  | c :: cs => utf8encode c ++ flatEnc cs

/-- A byte list is valid UTF-8: it is the encoding of some scalar list. -/
def ValidUtf8 (l : List Nat) : Prop :=
  ∃ cs : List Nat, (∀ c ∈ cs, ScalarValue c) ∧ flatEnc cs = l

/-- Smallest admissible second byte of a 3-byte sequence led by `b`. -/
def lower3 (b : Nat) : Nat := if b = 0xE0 then 0xA0 else 0x80

/-- Largest admissible second byte of a 3-byte sequence led by `b`. -/
def upper3 (b : Nat) : Nat := if b = 0xED then 0x9F else 0xBF

/-- Smallest admissible second byte of a 4-byte sequence led by `b`. -/
def lower4 (b : Nat) : Nat := if b = 0xF0 then 0x90 else 0x80

/-- Largest admissible second byte of a 4-byte sequence led by `b`. -/
def upper4 (b : Nat) : Nat := if b = 0xF4 then 0x8F else 0xBF

/-- Is `b` a UTF-8 continuation byte? -/
def contB (b : Nat) : Bool := decide (0x80 ≤ b ∧ b ≤ 0xBF)

/-- Decode one UTF-8 scalar from the front of a byte list (the per-character
step of the validation performed by `String::from_utf8`). -/
def utf8decodeAux : List Nat → Option (Nat × List Nat)
  | [] => none
  | b1 :: rest =>
    if b1 ≤ 0x7F then some (b1, rest)
    else if b1 < 0xC2 then none
    else if b1 ≤ 0xDF then
      match rest with
      | b2 :: r =>
        if contB b2 then some ((b1 - 0xC0) * 0x40 + (b2 - 0x80), r) else none
      | [] => none
    else if b1 ≤ 0xEF then
      match rest with
      | b2 :: b3 :: r =>
        if lower3 b1 ≤ b2 ∧ b2 ≤ upper3 b1 ∧ contB b3 then
          some ((b1 - 0xE0) * 0x1000 + (b2 - 0x80) * 0x40 + (b3 - 0x80), r)
        else none
      | _ => none
    else if b1 ≤ 0xF4 then
      match rest with
      | b2 :: b3 :: b4 :: r =>
        if lower4 b1 ≤ b2 ∧ b2 ≤ upper4 b1 ∧ contB b3 ∧ contB b4 then
          some ((b1 - 0xF0) * 0x40000 + (b2 - 0x80) * 0x1000 +
            (b3 - 0x80) * 0x40 + (b4 - 0x80), r)
        else none
      | _ => none
    else none

/-- Fuelled UTF-8 validity check (fuel bounds the number of scalars). -/
def utf8ValidFuel : Nat → List Nat → Bool
  | _, [] => true
  | 0, _ :: _ => false
  | f + 1, b :: rest =>
    match utf8decodeAux (b :: rest) with
    | some (_, r) => utf8ValidFuel f r
    | none => false

/-- Executable UTF-8 validity check, as performed by `String::from_utf8`. -/
def utf8Valid (l : List Nat) : Bool := utf8ValidFuel l.length l

/-- Models `String::from_utf8`: `some` of the same bytes when they are valid
UTF-8, `none` (an `Err`, hence a panic under `.unwrap()`) otherwise. -/
def string_from_utf8 (l : List Nat) : Option (List Nat) :=
  if utf8Valid l then some l else none

/-! ### Basic facts about the encoding -/

theorem utf8encode_ascii {c : Nat} (h : c < 0x80) : utf8encode c = [c] := by
  unfold utf8encode; rw [if_pos h]

theorem utf8encode_ne_nil (c : Nat) : utf8encode c ≠ [] := by
  unfold utf8encode
  split_ifs <;> simp

theorem utf8encode_all_ge {c : Nat} (h : 0x80 ≤ c) :
    ∀ b ∈ utf8encode c, 0x80 ≤ b := by
  unfold utf8encode
  split_ifs with h1 h2 h3 <;> intro b hb <;> simp at hb <;> omega

theorem utf8encode_head_ge {c : Nat} (h : 0x80 ≤ c) :
    ∃ b1 bs, utf8encode c = b1 :: bs ∧ 0xC0 ≤ b1 := by
  unfold utf8encode
  split_ifs with h1 h2 h3
  · omega
  · exact ⟨_, _, rfl, by omega⟩
  · exact ⟨_, _, rfl, by omega⟩
  · exact ⟨_, _, rfl, by omega⟩

/-- Decoding after encoding recovers the scalar and the rest of the input. -/
theorem utf8decodeAux_encode {c : Nat} (h : ScalarValue c) (r : List Nat) :
    utf8decodeAux (utf8encode c ++ r) = some (c, r) := by
  obtain ⟨hlt, hsur⟩ := h
  unfold utf8encode
  split_ifs with h1 h2 h3
  · simp only [List.cons_append, List.nil_append]
    rw [show utf8decodeAux (c :: r) = some (c, r) by
      simp only [utf8decodeAux]; rw [if_pos (by omega)]]
  · simp only [List.cons_append, List.nil_append]
    simp only [utf8decodeAux]
    rw [if_neg (by omega), if_neg (by omega), if_pos (by omega)]
    have hc : contB (0x80 + c % 0x40) = true := by
      simp only [contB, decide_eq_true_eq]; omega
    rw [if_pos hc]
    simp only [Option.some.injEq, Prod.mk.injEq]
    exact ⟨by omega, trivial⟩
  · simp only [List.cons_append, List.nil_append]
    simp only [utf8decodeAux]
    rw [if_neg (by omega), if_neg (by omega), if_neg (by omega),
      if_pos (by omega)]
    have hcond : lower3 (0xE0 + c / 0x1000) ≤ 0x80 + (c / 0x40) % 0x40 ∧
        0x80 + (c / 0x40) % 0x40 ≤ upper3 (0xE0 + c / 0x1000) ∧
        contB (0x80 + c % 0x40) = true := by
      refine ⟨?_, ?_, ?_⟩
      · simp only [lower3]; split_ifs with he <;> omega
      · simp only [upper3]; split_ifs with he <;> omega
      · simp only [contB, decide_eq_true_eq]; omega
    rw [if_pos hcond]
    simp only [Option.some.injEq, Prod.mk.injEq]
    exact ⟨by omega, trivial⟩
  · simp only [List.cons_append, List.nil_append]
    simp only [utf8decodeAux]
    rw [if_neg (by omega), if_neg (by omega), if_neg (by omega),
      if_neg (by omega), if_pos (by omega)]
    have hcond : lower4 (0xF0 + c / 0x40000) ≤ 0x80 + (c / 0x1000) % 0x40 ∧
        0x80 + (c / 0x1000) % 0x40 ≤ upper4 (0xF0 + c / 0x40000) ∧
        contB (0x80 + (c / 0x40) % 0x40) = true ∧
        contB (0x80 + c % 0x40) = true := by
      refine ⟨?_, ?_, ?_, ?_⟩
      · simp only [lower4]; split_ifs with he <;> omega
      · simp only [upper4]; split_ifs with he <;> omega
      · simp only [contB, decide_eq_true_eq]; omega
      · simp only [contB, decide_eq_true_eq]; omega
    rw [if_pos hcond]
    simp only [Option.some.injEq, Prod.mk.injEq]
    exact ⟨by omega, trivial⟩

/-- A successful decode step exhibits the input as an encoded scalar followed
by the rest. -/
theorem utf8decodeAux_sound {l : List Nat} {c : Nat} {r : List Nat}
    (h : utf8decodeAux l = some (c, r)) :
    ScalarValue c ∧ l = utf8encode c ++ r := by
  match l with
  | [] => simp [utf8decodeAux] at h
  | b1 :: rest =>
    simp only [utf8decodeAux] at h
    split_ifs at h with h1 h2 h3 h4 h5
    · obtain ⟨rfl, rfl⟩ : b1 = c ∧ rest = r := by
        simpa using h
      refine ⟨⟨by omega, by omega⟩, ?_⟩
      rw [utf8encode_ascii (by omega)]
      simp
    · match rest with
      | [] => simp at h
      | b2 :: r2 =>
        simp only at h
        split_ifs at h with hc
        simp only [contB, decide_eq_true_eq] at hc
        obtain ⟨hval, rfl⟩ : (b1 - 0xC0) * 0x40 + (b2 - 0x80) = c ∧ r2 = r := by
          simpa using h
        constructor
        · exact ⟨by omega, by omega⟩
        · rw [show utf8encode c = [0xC0 + c / 0x40, 0x80 + c % 0x40] by
            unfold utf8encode
            rw [if_neg (by omega), if_pos (by omega)]]
          simp only [List.cons_append, List.nil_append, List.cons.injEq]
          refine ⟨by omega, by omega, by trivial⟩
    · match rest with
      | [] => simp at h
      | [b2] => simp at h
      | b2 :: b3 :: r3 =>
        simp only at h
        split_ifs at h with hc
        obtain ⟨hc1, hc2, hc3⟩ := hc
        simp only [contB, decide_eq_true_eq] at hc3
        simp only [lower3, upper3] at hc1 hc2
        obtain ⟨hval, rfl⟩ :
            (b1 - 0xE0) * 0x1000 + (b2 - 0x80) * 0x40 + (b3 - 0x80) = c ∧
              r3 = r := by simpa using h
        have hb2lo : (if b1 = 0xE0 then 0xA0 else 0x80) ≤ b2 := hc1
        have hb2hi : b2 ≤ if b1 = 0xED then 0x9F else 0xBF := hc2
        have hb2 : 0x80 ≤ b2 ∧ b2 ≤ 0xBF := by
          split_ifs at hb2lo hb2hi <;> omega
        have hrange : 0x800 ≤ c ∧ c < 0x10000 ∧ ¬(0xD800 ≤ c ∧ c ≤ 0xDFFF) := by
          split_ifs at hb2lo hb2hi <;> omega
        constructor
        · exact ⟨by omega, hrange.2.2⟩
        · rw [show utf8encode c =
              [0xE0 + c / 0x1000, 0x80 + (c / 0x40) % 0x40, 0x80 + c % 0x40] by
            unfold utf8encode
            rw [if_neg (by omega), if_neg (by omega), if_pos (by omega)]]
          simp only [List.cons_append, List.nil_append, List.cons.injEq]
          refine ⟨by omega, by omega, by omega, by trivial⟩
    · match rest with
      | [] => simp at h
      | [b2] => simp at h
      | [b2, b3] => simp at h
      | b2 :: b3 :: b4 :: r4 =>
        simp only at h
        split_ifs at h with hc
        obtain ⟨hc1, hc2, hc3, hc4⟩ := hc
        simp only [contB, decide_eq_true_eq] at hc3 hc4
        simp only [lower4, upper4] at hc1 hc2
        obtain ⟨hval, rfl⟩ :
            (b1 - 0xF0) * 0x40000 + (b2 - 0x80) * 0x1000 +
              (b3 - 0x80) * 0x40 + (b4 - 0x80) = c ∧ r4 = r := by simpa using h
        have hb2lo : (if b1 = 0xF0 then 0x90 else 0x80) ≤ b2 := hc1
        have hb2hi : b2 ≤ if b1 = 0xF4 then 0x8F else 0xBF := hc2
        have hb2 : 0x80 ≤ b2 ∧ b2 ≤ 0xBF := by
          split_ifs at hb2lo hb2hi <;> omega
        have hrange : 0x10000 ≤ c ∧ c < 0x110000 := by
          split_ifs at hb2lo hb2hi <;> omega
        constructor
        · exact ⟨by omega, by omega⟩
        · rw [show utf8encode c =
              [0xF0 + c / 0x40000, 0x80 + (c / 0x1000) % 0x40,
                0x80 + (c / 0x40) % 0x40, 0x80 + c % 0x40] by
            unfold utf8encode
            rw [if_neg (by omega), if_neg (by omega), if_neg (by omega)]]
          simp only [List.cons_append, List.nil_append, List.cons.injEq]
          refine ⟨by omega, by omega, by omega, by omega, by trivial⟩

theorem utf8decodeAux_shrink {l : List Nat} {c : Nat} {r : List Nat}
    (h : utf8decodeAux l = some (c, r)) : r.length < l.length := by
  obtain ⟨-, rfl⟩ := utf8decodeAux_sound h
  have := utf8encode_ne_nil c
  simp only [List.length_append]
  cases he : utf8encode c with
  | nil => exact absurd he this
  | cons a as => simp [he]

/-! ### Validity bridge: `ValidUtf8` coincides with the executable check -/

theorem utf8ValidFuel_irrel :
    ∀ f g l, l.length ≤ f → l.length ≤ g →
      utf8ValidFuel f l = utf8ValidFuel g l := by
  intro f
  induction f with
  | zero =>
    intro g l hf _
    have : l = [] := List.length_eq_zero.mp (Nat.le_zero.mp hf)
    subst this
    cases g <;> rfl
  | succ f ih =>
    intro g l hf hg
    match l with
    | [] => cases g <;> rfl
    | b :: rest =>
      match g with
      | 0 => exact absurd hg (by simp)
      | g + 1 =>
        show (match utf8decodeAux (b :: rest) with
          | some (_, r) => utf8ValidFuel f r
          | none => false) = (match utf8decodeAux (b :: rest) with
          | some (_, r) => utf8ValidFuel g r
          | none => false)
        cases hd : utf8decodeAux (b :: rest) with
        | none => rfl
        | some p =>
          obtain ⟨c, r⟩ := p
          have hlen := utf8decodeAux_shrink hd
          simp only [List.length_cons] at hf hg
          exact ih g r (by simp at hlen ⊢; omega) (by simp at hlen ⊢; omega)

theorem utf8Valid_cons_encode {c : Nat} (h : ScalarValue c) (r : List Nat) :
    utf8Valid (utf8encode c ++ r) = utf8Valid r := by
  unfold utf8Valid
  have hne := utf8encode_ne_nil c
  cases he : utf8encode c with
  | nil => exact absurd he hne
  | cons b bs =>
    have hstep : utf8decodeAux (b :: (bs ++ r)) = some (c, r) := by
      rw [show b :: (bs ++ r) = utf8encode c ++ r by rw [he]; simp]
      exact utf8decodeAux_encode h r
    simp only [List.cons_append, List.length_cons, List.length_append]
    show (match utf8decodeAux (b :: (bs ++ r)) with
      | some (_, r') => utf8ValidFuel (bs.length + r.length) r'
      | none => false) = utf8ValidFuel r.length r
    rw [hstep]
    exact utf8ValidFuel_irrel _ _ r (by omega) (by omega)

theorem valid_utf8Valid {l : List Nat} (h : ValidUtf8 l) : utf8Valid l = true := by
  obtain ⟨cs, hsc, rfl⟩ := h
  induction cs with
  | nil => rfl
  | cons c cs ih =>
    show utf8Valid (utf8encode c ++ flatEnc cs) = true
    rw [utf8Valid_cons_encode (hsc c (by simp)) (flatEnc cs)]
    exact ih (fun x hx => hsc x (by simp [hx]))

theorem utf8Valid_valid_bounded :
    ∀ n l, l.length ≤ n → utf8Valid l = true → ValidUtf8 l := by
  intro n
  induction n with
  | zero =>
    intro l hl _
    have : l = [] := List.length_eq_zero.mp (Nat.le_zero.mp hl)
    subst this
    exact ⟨[], by simp, rfl⟩
  | succ n ih =>
    intro l hl h
    match l with
    | [] => exact ⟨[], by simp, rfl⟩
    | b :: rest =>
      unfold utf8Valid at h
      simp only [List.length_cons] at h
      have h' : (match utf8decodeAux (b :: rest) with
          | some (_, r) => utf8ValidFuel rest.length r
          | none => false) = true := h
      cases hd : utf8decodeAux (b :: rest) with
      | none => rw [hd] at h'; exact absurd h' (by simp)
      | some p =>
        obtain ⟨c, r⟩ := p
        rw [hd] at h'
        obtain ⟨hc, heq⟩ := utf8decodeAux_sound hd
        have hlen := utf8decodeAux_shrink hd
        have hr : utf8Valid r = true := by
          unfold utf8Valid
          rw [utf8ValidFuel_irrel r.length rest.length r le_rfl
            (by simp at hlen; omega)]
          exact h'
        simp only [List.length_cons] at hl hlen
        obtain ⟨cs, hsc, hfl⟩ := ih r (by omega) hr
        exact ⟨c :: cs, by
          intro x hx
          rcases List.mem_cons.mp hx with rfl | hx
          · exact hc
          · exact hsc x hx, by simp only [flatEnc, hfl]; exact heq.symm⟩

theorem utf8Valid_valid {l : List Nat} (h : utf8Valid l = true) : ValidUtf8 l :=
  utf8Valid_valid_bounded l.length l le_rfl h

theorem flatEnc_append : ∀ a b, flatEnc (a ++ b) = flatEnc a ++ flatEnc b := by
  intro a b
  induction a with
  | nil => rfl
  | cons c cs ih => simp only [List.cons_append, flatEnc, List.append_eq, ih, List.append_assoc]

theorem validUtf8_append {a b : List Nat} (ha : ValidUtf8 a) (hb : ValidUtf8 b) :
    ValidUtf8 (a ++ b) := by
  obtain ⟨cs1, h1, rfl⟩ := ha
  obtain ⟨cs2, h2, rfl⟩ := hb
  refine ⟨cs1 ++ cs2, ?_, ?_⟩
  · intro c hc
    rcases List.mem_append.mp hc with h | h
    · exact h1 c h
    · exact h2 c h
  · exact flatEnc_append cs1 cs2

theorem validUtf8_ascii {l : List Nat} (h : ∀ b ∈ l, b < 0x80) : ValidUtf8 l := by
  refine ⟨l, ?_, ?_⟩
  · intro c hc
    have := h c hc
    exact ⟨by omega, by omega⟩
  · induction l with
    | nil => rfl
    | cons b rest ihl =>
      simp only [flatEnc]
      rw [utf8encode_ascii (h b (by simp)), ihl (fun x hx => h x (by simp [hx]))]
      rfl

/-! ## `src/unescape.rs`: byte-class predicates and consumers

The `consumer!` macro in the source generates three functions of identical
shape differing only in the accepted byte pattern; `consumeWhile` embeds
that shape once.  Each returns the consumed buffer and the remaining input. -/

/-- The byte pattern of `consume_decimal`: `b'0'..=b'9'`. -/
def is_dec_digit (b : Nat) : Bool := decide (48 ≤ b ∧ b ≤ 57)

/-- The byte pattern of `consume_hexadecimal`:
`b'0'..=b'9' | b'a'..=b'f' | b'A'..=b'F'`. -/
def is_hex_digit (b : Nat) : Bool :=
  decide ((48 ≤ b ∧ b ≤ 57) ∨ (97 ≤ b ∧ b ≤ 102) ∨ (65 ≤ b ∧ b ≤ 70))

/-- The byte pattern of `consume_alphanumeric`:
`b'0'..=b'9' | b'a'..=b'z' | b'A'..=b'Z'`. -/
def is_alnum (b : Nat) : Bool :=
  decide ((48 ≤ b ∧ b ≤ 57) ∨ (97 ≤ b ∧ b ≤ 122) ∨ (65 ≤ b ∧ b ≤ 90))

/-- Body of the `consumer!` macro: consume the maximal run of bytes
accepted by `p`, returning the consumed buffer and the remaining input. -/
def consumeWhile (p : Nat → Bool) : List Nat → List Nat × List Nat
  | [] => ([], [])
  | c :: rest =>
    if p c then
      (c :: (consumeWhile p rest).1, (consumeWhile p rest).2)
    else ([], c :: rest)

/-- `consume_decimal` from the source. -/
def consume_decimal (l : List Nat) : List Nat × List Nat :=
  consumeWhile is_dec_digit l

/-- `consume_hexadecimal` from the source. -/
def consume_hexadecimal (l : List Nat) : List Nat × List Nat :=
  consumeWhile is_hex_digit l

/-- `consume_alphanumeric` from the source. -/
def consume_alphanumeric (l : List Nat) : List Nat × List Nat :=
  consumeWhile is_alnum l

/-! ## Numeric parsing: `u32::from_str_radix` -/

/-- Models `char::to_digit(radix)` on a byte. -/
def digitVal (radix b : Nat) : Option Nat :=
  if 48 ≤ b ∧ b ≤ 57 ∧ b - 48 < radix then some (b - 48)
  else if 97 ≤ b ∧ b ≤ 122 ∧ b - 87 < radix then some (b - 87)
  else if 65 ≤ b ∧ b ≤ 90 ∧ b - 55 < radix then some (b - 55)
  else none

/-- Left fold of `from_str_radix` over the digit bytes. -/
def digitsValGo (radix acc : Nat) : List Nat → Option Nat
  | [] => some acc
  | b :: rest =>
    match digitVal radix b with
    | some d => digitsValGo radix (acc * radix + d) rest
    | none => none

/-- Models `u32::from_str_radix`: `none` on an empty string, an invalid
digit, or a value exceeding `u32::MAX` (each intermediate value is bounded
by the final one, so the single final bound models the per-step overflow
check). -/
def parse_u32 (radix : Nat) (digits : List Nat) : Option Nat :=
  if digits.isEmpty then none
  else
    match digitsValGo radix 0 digits with
    | some v => if v ≤ 0xFFFFFFFF then some v else none
    | none => none

/-! ## The numeric-reference correction table -/

/-- `REPLACEMENT_CHAR` (U+FFFD) from the source. -/
def REPLACEMENT_CHAR : Nat := 0xFFFD

/-- `is_noncharacter` from the source. -/
def is_noncharacter (c : Nat) : Bool :=
  decide ((0xFDD0 ≤ c ∧ c ≤ 0xFDEF) ∨ c = 0xFFFE ∨ c = 0xFFFF ∨
    c = 0x1FFFE ∨ c = 0x1FFFF ∨ c = 0x2FFFE ∨ c = 0x2FFFF ∨
    c = 0x3FFFE ∨ c = 0x3FFFF ∨ c = 0x4FFFE ∨ c = 0x4FFFF ∨
    c = 0x5FFFE ∨ c = 0x5FFFF ∨ c = 0x6FFFE ∨ c = 0x6FFFF ∨
    c = 0x7FFFE ∨ c = 0x7FFFF ∨ c = 0x8FFFE ∨ c = 0x8FFFF ∨
    c = 0x9FFFE ∨ c = 0x9FFFF ∨ c = 0xAFFFE ∨ c = 0xAFFFF ∨
    c = 0xBFFFE ∨ c = 0xBFFFF ∨ c = 0xCFFFE ∨ c = 0xCFFFF ∨
    c = 0xDFFFE ∨ c = 0xDFFFF ∨ c = 0xEFFFE ∨ c = 0xEFFFF ∨
    c = 0xFFFFE ∨ c = 0xFFFFF ∨ c = 0x10FFFE ∨ c = 0x10FFFF)

/-- `is_outside_range` from the source. -/
def is_outside_range (c : Nat) : Bool := decide (0x10FFFF < c)

/-- `is_surrogate` from the source. -/
def is_surrogate (c : Nat) : Bool := decide (0xD800 ≤ c ∧ c ≤ 0xDFFF)

/-- `is_control` from the source. -/
def is_control (c : Nat) : Bool :=
  decide (c ≤ 0x1F ∨ (0x7F ≤ c ∧ c ≤ 0x9F))

/-- `is_ascii_whitespace` from the source. -/
def is_ascii_whitespace (c : Nat) : Bool :=
  decide (c = 0x09 ∨ c = 0x0A ∨ c = 0x0C ∨ c = 0x0D ∨ c = 0x20)

/-- The 27 `control-character-reference parse error exceptions` match arms
of `correct_numeric_entity` (`src/unescape.rs` lines 196–222): the legacy
Windows-1252 remapping, as (code point, mapped scalar) pairs in source
order. -/
def legacyTable : List (Nat × Nat) :=
  [(0x80, 0x20AC), (0x82, 0x201A), (0x83, 0x0192), (0x84, 0x201E),
   (0x85, 0x2026), (0x86, 0x2020), (0x87, 0x2021), (0x88, 0x02C6),
   (0x89, 0x2030), (0x8A, 0x0160), (0x8B, 0x2039), (0x8C, 0x0152),
   (0x8E, 0x017D), (0x91, 0x2018), (0x92, 0x2019), (0x93, 0x201C),
   (0x94, 0x201D), (0x95, 0x2022), (0x96, 0x2013), (0x97, 0x2014),
   (0x98, 0x02DC), (0x99, 0x2122), (0x9A, 0x0161), (0x9B, 0x203A),
   (0x9C, 0x0153), (0x9E, 0x017E), (0x9F, 0x0178)]

/-- Lookup in the legacy match arms. -/
def legacyLookup (n : Nat) : Option Nat := legacyTable.lookup n

/-- `correct_numeric_entity` from the source: `some bytes` when a correction
applies (the helpers `char_to_vecu8`/`u32_to_vecu8` UTF-8-encode the
corrected scalar), `none` to fall through to the literal reference text. -/
def correct_numeric_entity (number : Nat) : Option (List Nat) :=
  if number = 0 then some (utf8encode REPLACEMENT_CHAR)
  else if is_outside_range number then some (utf8encode REPLACEMENT_CHAR)
  else if is_surrogate number then some (utf8encode REPLACEMENT_CHAR)
  else if is_noncharacter number then none
  else
    match legacyLookup number with
    | some m => some (utf8encode m)
    | none =>
      if number = 0x0D then none
      else if is_ascii_whitespace number then some (utf8encode number)
      else if is_control number then none
      else
        match char_from_u32 number with
        | some c => some (utf8encode c)
        | none => none

/-! ## The numeric-reference resolver -/

/-- Second half of `match_numeric_entity`: the returned pair after the
number (`best` holds the literal bytes consumed so far, without any
semicolon). -/
def numeric_finish (best : List Nat) (number : Option Nat) (rest : List Nat) :
    List Nat × List Nat :=
  match number with
  | some n =>
    match correct_numeric_entity n with
    | some e => (e, rest)
    | none => (best, rest)
  | none => (best, rest)

/-- The `if let Some(&b';') = iter.peek()` step of `match_numeric_entity`
followed by the correction: consume a trailing semicolon into the literal
expansion, then finish. -/
def numeric_end (best : List Nat) (number : Option Nat) (rest : List Nat) :
    List Nat × List Nat :=
  if rest.head? = some 59 then numeric_finish (best ++ [59]) number rest.tail
  else numeric_finish best number rest

/-- `match_numeric_entity` from the source, taking the input *after* the
`#` byte (the function's own `iter.next()`/panic assertion that the first
byte is `#` is discharged by the caller, which only dispatches here after
peeking `#`). -/
def match_numeric_entity (l : List Nat) : List Nat × List Nat :=
  match l with
  | [] => ([38, 35], [])
  | c :: rest =>
    if c = 120 ∨ c = 88 then
      numeric_end ([38, 35, c] ++ (consume_hexadecimal rest).1)
        (parse_u32 16 (consume_hexadecimal rest).1)
        (consume_hexadecimal rest).2
    else
      numeric_end ([38, 35] ++ (consume_decimal (c :: rest)).1)
        (parse_u32 10 (consume_decimal (c :: rest)).1)
        (consume_decimal (c :: rest)).2

/-! ## The entity table

The `ENTITIES` map is generated at build time by `build.rs` from the WHATWG
data set and is not part of `src/`. -/

/-- Modelled from the spec: the precomputed Entity Table, an immutable
mapping from named-reference spellings (including the leading `&` and,
where applicable, a trailing `;`) to UTF-8 expansions.  The mechanism
generating the full WHATWG table is out of the spec's scope; this model
contains exactly the entries the spec names: the escape expansions
`&amp;`, `&lt;`, `&gt;`, `&quot;`, `&apos;` (§6) and the shared-prefix
family `&times`, `&times;`, `&timesb;`, `&timesbar;`, `&timesd;` (§3, §8). -/
def ENTITIES : List (List Nat × List Nat) :=
  [([38, 97, 109, 112, 59], utf8encode 38),                  -- &amp;   → &
   ([38, 108, 116, 59], utf8encode 60),                      -- &lt;    → <
   ([38, 103, 116, 59], utf8encode 62),                      -- &gt;    → >
   ([38, 113, 117, 111, 116, 59], utf8encode 34),            -- &quot;  → "
   ([38, 97, 112, 111, 115, 59], utf8encode 39),             -- &apos;  → \x27
   ([38, 116, 105, 109, 101, 115], utf8encode 0xD7),         -- &times  → ×
   ([38, 116, 105, 109, 101, 115, 59], utf8encode 0xD7),     -- &times; → ×
   ([38, 116, 105, 109, 101, 115, 98, 59], utf8encode 0x22A0),        -- &timesb;
   ([38, 116, 105, 109, 101, 115, 98, 97, 114, 59], utf8encode 0x2A31), -- &timesbar;
   ([38, 116, 105, 109, 101, 115, 100, 59], utf8encode 0x2A30)]         -- &timesd;

/-- `ENTITIES.get(..)`: lookup of a spelling in the Entity Table. -/
def entityLookup (k : List Nat) : Option (List Nat) := ENTITIES.lookup k

/-- Modelled from the spec: `ENTITY_MIN_LENGTH`, the minimum key length of
the Entity Table (here 4, the length of `&lt;`). -/
def ENTITY_MIN_LENGTH : Nat := 4

/-- Modelled from the spec: `ENTITY_MAX_LENGTH`, the maximum key length of
the Entity Table (here 10, the length of `&timesbar;`). -/
def ENTITY_MAX_LENGTH : Nat := 10

/-! ## The named-reference matcher -/

/-- Candidate formation in `match_entity` (source lines 270–277): the
leading `&`, the maximal alphanumeric run, and a trailing `;` when present;
paired with the remaining input. -/
def namedCandidate (l : List Nat) : List Nat × List Nat :=
  if (consume_alphanumeric l).2.head? = some 59 then
    (38 :: ((consume_alphanumeric l).1 ++ [59]), (consume_alphanumeric l).2.tail)
  else (38 :: (consume_alphanumeric l).1, (consume_alphanumeric l).2)

/-- The `for check_len in (ENTITY_MIN_LENGTH..=max_len).rev()` loop of
`match_entity`: probe the table at prefix length `n`, then `n - 1`, …,
stopping below `ENTITY_MIN_LENGTH`. -/
def findFrom (cand : List Nat) : Nat → Option (Nat × List Nat)
  | 0 => none
  | n + 1 =>
    if n + 1 < ENTITY_MIN_LENGTH then none
    else
      match entityLookup (cand.take (n + 1)) with
      | some e => some (n + 1, e)
      | none => findFrom cand n

/-- `match_entity` from the source: input is positioned just after `&`. -/
def match_entity (l : List Nat) : List Nat × List Nat :=
  if l.head? = some 35 then match_numeric_entity l.tail
  else if (namedCandidate l).1.length < ENTITY_MIN_LENGTH then namedCandidate l
  else
    match findFrom (namedCandidate l).1
        (min (namedCandidate l).1.length ENTITY_MAX_LENGTH) with
    | some (check_len, expansion) =>
      (expansion ++ (namedCandidate l).1.drop check_len, (namedCandidate l).2)
    | none => namedCandidate l

/-! ## The decode driver -/

/-- Fuelled driver loop of `unescape` (fuel ≥ input length suffices, since
`match_entity` never lengthens the remaining input). -/
def unescapeGo : Nat → List Nat → List Nat
  | 0, _ => []
  | _ + 1, [] => []
  | f + 1, c :: rest =>
    if c = 38 then (match_entity rest).1 ++ unescapeGo f (match_entity rest).2
    else c :: unescapeGo f rest

/-- The byte transformation performed by `unescape`'s scan loop, before the
final `String::from_utf8(..).unwrap()`. -/
def unescape_bytes (l : List Nat) : List Nat := unescapeGo l.length l

/-- `unescape` from the source, including the final
`String::from_utf8(buffer).unwrap()`: `none` models the panic on a buffer
that is not valid UTF-8. -/
def unescape (l : List Nat) : Option (List Nat) :=
  string_from_utf8 (unescape_bytes l)

/-! ## `src/escape.rs` -/

/-- `map_u8` from the source: `none` models the
`panic!("map_u8 called on invalid character ..")` arm. -/
def map_u8 (c : Nat) : Option (List Nat) :=
  if c = 38 then some [38, 97, 109, 112, 59]            -- &amp;
  else if c = 60 then some [38, 108, 116, 59]           -- &lt;
  else if c = 62 then some [38, 103, 116, 59]           -- &gt;
  else if c = 34 then some [38, 113, 117, 111, 116, 59] -- &quot;
  else if c = 39 then some [38, 97, 112, 111, 115, 59]  -- &apos;
  else none

/-- One iteration of the `escape!` macro's loop: bytes in the active set go
through `map_u8`, all others are pushed unchanged. -/
def escapeStep (chars : List Nat) (c : Nat) : Option (List Nat) :=
  if c ∈ chars then map_u8 c else some [c]

/-- The loop of the `escape!` macro over the whole input; `none` propagates
a `map_u8` panic. -/
def escapeRun (chars : List Nat) : List Nat → Option (List Nat)
  | [] => some []
  | c :: rest =>
    match escapeStep chars c, escapeRun chars rest with
    | some e, some out => some (e ++ out)
    | _, _ => none

/-- `escape_text`: `escape!(raw, b'&', b'<', b'>')` plus the final
`String::from_utf8(output).unwrap()`. -/
def escape_text (l : List Nat) : Option (List Nat) :=
  (escapeRun [38, 60, 62] l).bind string_from_utf8

/-- `escape_attribute`: `escape!(raw, b'&', b'<', b'>', b'"')`. -/
def escape_attribute (l : List Nat) : Option (List Nat) :=
  (escapeRun [38, 60, 62, 34] l).bind string_from_utf8

/-- `escape_all_quotes`: `escape!(raw, b'&', b'<', b'>', b'"', b'\'')`. -/
def escape_all_quotes (l : List Nat) : Option (List Nat) :=
  (escapeRun [38, 60, 62, 34, 39] l).bind string_from_utf8

/-! ## Properties of the consumers -/

theorem consumeWhile_append_snd (p : Nat → Bool) :
    ∀ l, (consumeWhile p l).1 ++ (consumeWhile p l).2 = l := by
  intro l
  induction l with
  | nil => rfl
  | cons c rest ih =>
    simp only [consumeWhile]
    split_ifs with hp
    · simp only [List.cons_append, ih]
    · rfl

theorem consumeWhile_length (p : Nat → Bool) :
    ∀ l, (consumeWhile p l).2.length ≤ l.length := by
  intro l
  induction l with
  | nil => exact le_rfl
  | cons c rest ih =>
    simp only [consumeWhile]
    split_ifs with hp
    · simpa using Nat.le_succ_of_le ih
    · exact le_rfl

theorem consumeWhile_mem (p : Nat → Bool) :
    ∀ l, ∀ b ∈ (consumeWhile p l).1, p b = true := by
  intro l
  induction l with
  | nil => simp [consumeWhile]
  | cons c rest ih =>
    simp only [consumeWhile]
    split_ifs with hp
    · intro b hb
      rcases List.mem_cons.mp hb with rfl | hb
      · exact hp
      · exact ih b hb
    · simp

theorem consumeWhile_sat (p : Nat → Bool) {ds : List Nat} (h : ∀ d ∈ ds, p d = true) :
    ∀ r, (r.head? = some 59 ∧ p 59 = false) ∨ r = [] →
      consumeWhile p (ds ++ r) = (ds, r) := by
  induction ds with
  | nil =>
    intro r hr
    rcases hr with ⟨hh, hp⟩ | rfl
    · match r with
      | [] => rfl
      | b :: t =>
        simp only [List.head?] at hh
        obtain rfl : b = 59 := by simpa using hh
        simp only [List.nil_append, consumeWhile, hp]
        simp
    · rfl
  | cons d ds ih =>
    intro r hr
    rw [List.cons_append]
    simp only [consumeWhile]
    rw [if_pos (h d (by simp)), ih (fun x hx => h x (by simp [hx])) r hr]

/-! ## Length bounds on the matchers (for driver fuel) -/

theorem numeric_finish_snd (best : List Nat) (number : Option Nat)
    (rest : List Nat) : (numeric_finish best number rest).2 = rest := by
  cases number with
  | none => rfl
  | some n =>
    simp only [numeric_finish]
    cases h : correct_numeric_entity n <;> rfl

theorem numeric_end_length (best : List Nat) (number : Option Nat)
    (rest : List Nat) : (numeric_end best number rest).2.length ≤ rest.length := by
  unfold numeric_end
  split_ifs with hh
  · rw [numeric_finish_snd]
    cases rest <;> simp
  · rw [numeric_finish_snd]

theorem match_numeric_entity_length (l : List Nat) :
    (match_numeric_entity l).2.length ≤ l.length := by
  unfold match_numeric_entity
  match l with
  | [] => simp
  | c :: rest =>
    simp only
    split_ifs with hx
    · refine le_trans (numeric_end_length _ _ _) ?_
      exact le_trans (consumeWhile_length is_hex_digit rest) (by simp)
    · exact le_trans (numeric_end_length _ _ _)
        (consumeWhile_length is_dec_digit (c :: rest))

theorem tail_length_le (t : List Nat) : t.tail.length ≤ t.length := by
  cases t <;> simp

theorem namedCandidate_length (l : List Nat) :
    (namedCandidate l).2.length ≤ l.length := by
  unfold namedCandidate
  split_ifs with hh
  · exact le_trans (tail_length_le _) (consumeWhile_length is_alnum l)
  · exact consumeWhile_length is_alnum l

theorem match_entity_length (l : List Nat) :
    (match_entity l).2.length ≤ l.length := by
  unfold match_entity
  split_ifs with hh hshort
  · refine le_trans (match_numeric_entity_length l.tail) ?_
    cases l <;> simp
  · exact namedCandidate_length l
  · cases hf : findFrom (namedCandidate l).1
        (min (namedCandidate l).1.length ENTITY_MAX_LENGTH) with
    | none => exact namedCandidate_length l
    | some p =>
      obtain ⟨k, e⟩ := p
      exact namedCandidate_length l

/-! ## Driver unfolding equations -/

theorem unescapeGo_irrel :
    ∀ f g l, l.length ≤ f → l.length ≤ g → unescapeGo f l = unescapeGo g l := by
  intro f
  induction f with
  | zero =>
    intro g l hf _
    have : l = [] := List.length_eq_zero.mp (Nat.le_zero.mp hf)
    subst this
    cases g <;> rfl
  | succ f ih =>
    intro g l hf hg
    match l with
    | [] => cases g <;> rfl
    | c :: rest =>
      match g with
      | 0 => exact absurd hg (by simp)
      | g + 1 =>
        simp only [List.length_cons, Nat.succ_le_succ_iff] at hf hg
        simp only [unescapeGo]
        split_ifs with hc
        · have hme := match_entity_length rest
          rw [ih g (match_entity rest).2 (by omega) (by omega)]
        · rw [ih g rest hf hg]

theorem unescape_bytes_nil : unescape_bytes [] = [] := rfl

theorem unescape_bytes_cons {c : Nat} (h : c ≠ 38) (rest : List Nat) :
    unescape_bytes (c :: rest) = c :: unescape_bytes rest := by
  unfold unescape_bytes
  simp only [List.length_cons, unescapeGo]
  rw [if_neg h]

theorem unescape_bytes_amp (rest : List Nat) :
    unescape_bytes (38 :: rest) =
      (match_entity rest).1 ++ unescape_bytes (match_entity rest).2 := by
  unfold unescape_bytes
  simp only [List.length_cons, unescapeGo, if_pos rfl]
  have hme := match_entity_length rest
  rw [unescapeGo_irrel rest.length (match_entity rest).2.length
    (match_entity rest).2 hme le_rfl]
  simp

theorem unescape_bytes_ascii_run {bs : List Nat} (h : ∀ b ∈ bs, b ≠ 38) :
    ∀ t, unescape_bytes (bs ++ t) = bs ++ unescape_bytes t := by
  induction bs with
  | nil => intro t; rfl
  | cons b bs ih =>
    intro t
    simp only [List.cons_append]
    rw [unescape_bytes_cons (h b (by simp)) (bs ++ t),
      ih (fun x hx => h x (by simp [hx])) t]

/-! ## Output validity: every piece the decoder emits is valid UTF-8 -/

theorem validUtf8_encode {c : Nat} (h : ScalarValue c) :
    ValidUtf8 (utf8encode c) :=
  ⟨[c], by simpa using h, by simp [flatEnc]⟩

theorem lookup_mem_pairs {α β : Type} [BEq α] [LawfulBEq α] :
    ∀ (l : List (α × β)) (n : α) (m : β), l.lookup n = some m → (n, m) ∈ l := by
  intro l
  induction l with
  | nil => intro n m h; simp [List.lookup] at h
  | cons p t ih =>
    intro n m h
    obtain ⟨k, v⟩ := p
    simp only [List.lookup] at h
    cases hk : n == k with
    | true =>
      rw [hk] at h
      obtain rfl : v = m := by simpa using h
      obtain rfl : n = k := eq_of_beq hk
      simp
    | false =>
      rw [hk] at h
      exact List.mem_cons_of_mem _ (ih n m h)

theorem legacyLookup_scalar {n m : Nat} (h : legacyLookup n = some m) :
    0x80 ≤ n ∧ n ≤ 0x9F ∧ ScalarValue m := by
  have hm := lookup_mem_pairs legacyTable n m h
  have : ∀ p ∈ legacyTable, 0x80 ≤ p.1 ∧ p.1 ≤ 0x9F ∧ ScalarValue p.2 := by
    decide
  exact this (n, m) hm

/-- Every correction `correct_numeric_entity` applies is the UTF-8 encoding
of a Unicode scalar value. -/
theorem correct_numeric_entity_cases (n : Nat) :
    correct_numeric_entity n = none ∨
      ∃ c, ScalarValue c ∧ correct_numeric_entity n = some (utf8encode c) := by
  unfold correct_numeric_entity
  cases hleg : legacyLookup n with
  | some m =>
    dsimp only
    split_ifs
    · exact Or.inr ⟨REPLACEMENT_CHAR, by decide, rfl⟩
    · exact Or.inr ⟨REPLACEMENT_CHAR, by decide, rfl⟩
    · exact Or.inr ⟨REPLACEMENT_CHAR, by decide, rfl⟩
    · exact Or.inl rfl
    · exact Or.inr ⟨m, (legacyLookup_scalar hleg).2.2, rfl⟩
  | none =>
    dsimp only
    split_ifs with h0 hout hsur hnc hcr hws hctl
    · exact Or.inr ⟨REPLACEMENT_CHAR, by decide, rfl⟩
    · exact Or.inr ⟨REPLACEMENT_CHAR, by decide, rfl⟩
    · exact Or.inr ⟨REPLACEMENT_CHAR, by decide, rfl⟩
    · exact Or.inl rfl
    · exact Or.inl rfl
    · refine Or.inr ⟨n, ?_, rfl⟩
      simp only [is_ascii_whitespace, decide_eq_true_eq] at hws
      exact ⟨by omega, by omega⟩
    · exact Or.inl rfl
    · cases hch : char_from_u32 n with
      | some c =>
        unfold char_from_u32 at hch
        split_ifs at hch with hv
        obtain rfl : n = c := by simpa using hch
        exact Or.inr ⟨n, hv, rfl⟩
      | none => exact Or.inl rfl

theorem correct_numeric_entity_valid {n : Nat} {e : List Nat}
    (h : correct_numeric_entity n = some e) : ValidUtf8 e := by
  rcases correct_numeric_entity_cases n with hn | ⟨c, hc, hs⟩
  · rw [hn] at h; exact absurd h (by simp)
  · rw [hs] at h
    rw [← Option.some.inj h]
    exact validUtf8_encode hc

theorem entityLookup_scalar {k e : List Nat} (h : entityLookup k = some e) :
    ∃ c, ScalarValue c ∧ e = utf8encode c := by
  have hm := lookup_mem_pairs ENTITIES k e h
  have hall : ∀ p ∈ ENTITIES, ∃ c, ScalarValue c ∧ p.2 = utf8encode c := by
    intro p hp
    simp only [ENTITIES, List.mem_cons, List.not_mem_nil, or_false] at hp
    rcases hp with rfl | rfl | rfl | rfl | rfl | rfl | rfl | rfl | rfl | rfl
    · exact ⟨38, by decide, rfl⟩
    · exact ⟨60, by decide, rfl⟩
    · exact ⟨62, by decide, rfl⟩
    · exact ⟨34, by decide, rfl⟩
    · exact ⟨39, by decide, rfl⟩
    · exact ⟨0xD7, by decide, rfl⟩
    · exact ⟨0xD7, by decide, rfl⟩
    · exact ⟨0x22A0, by decide, rfl⟩
    · exact ⟨0x2A31, by decide, rfl⟩
    · exact ⟨0x2A30, by decide, rfl⟩
  exact hall (k, e) hm

theorem entityLookup_valid {k e : List Nat} (h : entityLookup k = some e) :
    ValidUtf8 e := by
  obtain ⟨c, hc, rfl⟩ := entityLookup_scalar h
  exact validUtf8_encode hc

theorem numeric_finish_fst_valid {best : List Nat}
    (hbest : ∀ b ∈ best, b < 0x80) (number : Option Nat) (rest : List Nat) :
    ValidUtf8 (numeric_finish best number rest).1 := by
  cases number with
  | none => exact validUtf8_ascii hbest
  | some n =>
    simp only [numeric_finish]
    cases h : correct_numeric_entity n with
    | some e => exact correct_numeric_entity_valid h
    | none => exact validUtf8_ascii hbest

/-! ## Scalar structure is preserved through the matchers -/

theorem flatEnc_eq_nil {cs : List Nat} (h : flatEnc cs = []) : cs = [] := by
  cases cs with
  | nil => rfl
  | cons c t =>
    simp only [flatEnc] at h
    exact absurd (List.append_eq_nil.mp h).1 (utf8encode_ne_nil c)

theorem flatEnc_head_ascii {cs : List Nat} (hsc : ∀ c ∈ cs, ScalarValue c)
    {b : Nat} (hb : b < 0x80) (hh : (flatEnc cs).head? = some b) :
    ∃ cs', cs = b :: cs' ∧ flatEnc cs = b :: flatEnc cs' := by
  match cs with
  | [] => simp [flatEnc] at hh
  | c :: cs' =>
    by_cases hc : c < 0x80
    · have he := utf8encode_ascii hc
      simp only [flatEnc, he, List.cons_append, List.nil_append,
        List.head?] at hh ⊢
      obtain rfl : c = b := by simpa using hh
      exact ⟨cs', rfl, rfl⟩
    · obtain ⟨b1, bs, he, hge⟩ := utf8encode_head_ge (c := c) (by omega)
      simp only [flatEnc, he, List.cons_append, List.head?] at hh
      obtain rfl : b1 = b := by simpa using hh
      exfalso
      omega

theorem consumeWhile_flatEnc (p : Nat → Bool) (hp : ∀ b, p b = true → b < 0x80) :
    ∀ cs, (∀ c ∈ cs, ScalarValue c) →
      ∃ cs1 cs2, cs = cs1 ++ cs2 ∧
        consumeWhile p (flatEnc cs) = (cs1, flatEnc cs2) ∧
        ∀ c ∈ cs1, p c = true ∧ c < 0x80 := by
  intro cs
  induction cs with
  | nil => exact fun _ => ⟨[], [], rfl, rfl, by simp⟩
  | cons c cs' ih =>
    intro hsc
    by_cases hc : c < 0x80
    · have he := utf8encode_ascii hc
      cases hpc : p c with
      | true =>
        obtain ⟨cs1, cs2, heq, hcw, hmem⟩ :=
          ih (fun x hx => hsc x (by simp [hx]))
        refine ⟨c :: cs1, cs2, by simp [heq], ?_, ?_⟩
        · simp only [flatEnc, he, List.cons_append, List.nil_append,
            consumeWhile, hpc, if_true, hcw]
        · intro x hx
          rcases List.mem_cons.mp hx with rfl | hx
          · exact ⟨hpc, hc⟩
          · exact hmem x hx
      | false =>
        refine ⟨[], c :: cs', rfl, ?_, by simp⟩
        simp [flatEnc, he, consumeWhile, hpc]
    · obtain ⟨b1, bs, he, hge⟩ := utf8encode_head_ge (c := c) (by omega)
      have hpb : p b1 = false := by
        cases hpb : p b1 with
        | true => exact absurd (hp b1 hpb) (by omega)
        | false => rfl
      refine ⟨[], c :: cs', rfl, ?_, by simp⟩
      simp [flatEnc, he, consumeWhile, hpb]

theorem numeric_finish_eta (b : List Nat) (n : Option Nat) (r : List Nat) :
    numeric_finish b n r = ((numeric_finish b n r).1, r) := by
  cases n with
  | none => rfl
  | some m =>
    simp only [numeric_finish]
    cases h : correct_numeric_entity m <;> rfl

theorem numeric_end_flatEnc {cs : List Nat} (hsc : ∀ c ∈ cs, ScalarValue c)
    {best : List Nat} (hbest : ∀ b ∈ best, b < 0x80) (number : Option Nat) :
    ∃ out cs2, numeric_end best number (flatEnc cs) = (out, flatEnc cs2) ∧
      ValidUtf8 out ∧ (∀ c ∈ cs2, ScalarValue c) ∧ cs2.length ≤ cs.length := by
  unfold numeric_end
  split_ifs with hh
  · obtain ⟨cs', rfl, hfl⟩ := flatEnc_head_ascii hsc (by omega) hh
    rw [hfl]
    refine ⟨(numeric_finish (best ++ [59]) number (flatEnc cs')).1, cs', ?_, ?_, ?_, ?_⟩
    · simp only [List.tail_cons]
      exact numeric_finish_eta _ _ _
    · refine numeric_finish_fst_valid ?_ number _
      intro b hb
      rcases List.mem_append.mp hb with hb | hb
      · exact hbest b hb
      · simp at hb; omega
    · exact fun x hx => hsc x (by simp [hx])
    · simp
  · refine ⟨(numeric_finish best number (flatEnc cs)).1, cs, ?_, ?_, hsc, le_rfl⟩
    · exact numeric_finish_eta _ _ _
    · exact numeric_finish_fst_valid hbest number _

theorem match_numeric_entity_flatEnc {cs : List Nat}
    (hsc : ∀ c ∈ cs, ScalarValue c) :
    ∃ out cs2, match_numeric_entity (flatEnc cs) = (out, flatEnc cs2) ∧
      ValidUtf8 out ∧ (∀ c ∈ cs2, ScalarValue c) ∧ cs2.length ≤ cs.length := by
  cases hfl : flatEnc cs with
  | nil =>
    obtain rfl := flatEnc_eq_nil hfl
    exact ⟨[38, 35], [], rfl, validUtf8_ascii (by decide), by simp, le_rfl⟩
  | cons b t =>
    by_cases hx : b = 120 ∨ b = 88
    · obtain ⟨cs', rfl, hfl'⟩ :=
        flatEnc_head_ascii hsc (b := b) (by omega) (by rw [hfl]; rfl)
      rw [hfl] at hfl'
      obtain rfl : t = flatEnc cs' := by simpa using hfl'
      obtain ⟨cs1, cs2, rfl, hcw, hmem⟩ :=
        consumeWhile_flatEnc is_hex_digit
          (fun x h => by simp [is_hex_digit, decide_eq_true_eq] at h; omega)
          cs' (fun x h => hsc x (by simp [h]))
      obtain ⟨out, cs3, hne, hval, hsc3, hlen⟩ :=
        @numeric_end_flatEnc cs2
          (fun x h => hsc x (by simp [h]))
          ([38, 35, b] ++ cs1)
          (by
            intro x h
            rcases List.mem_append.mp h with h | h
            · simp at h; omega
            · exact (hmem x h).2)
          (parse_u32 16 cs1)
      refine ⟨out, cs3, ?_, hval, hsc3, by simp at hlen ⊢; omega⟩
      simp only [match_numeric_entity]
      rw [if_pos hx]
      unfold consume_hexadecimal
      rw [hcw]
      exact hne
    · push_neg at hx
      obtain ⟨cs1, cs2, rfl, hcw, hmem⟩ :=
        consumeWhile_flatEnc is_dec_digit
          (fun x h => by simp [is_dec_digit, decide_eq_true_eq] at h; omega)
          cs hsc
      obtain ⟨out, cs3, hne, hval, hsc3, hlen⟩ :=
        @numeric_end_flatEnc cs2
          (fun x h => hsc x (by simp [h]))
          ([38, 35] ++ cs1)
          (by
            intro x h
            rcases List.mem_append.mp h with h | h
            · simp at h; omega
            · exact (hmem x h).2)
          (parse_u32 10 cs1)
      refine ⟨out, cs3, ?_, hval, hsc3, by simp at hlen ⊢; omega⟩
      have hbx : ¬(b = 120 ∨ b = 88) := by omega
      simp only [match_numeric_entity]
      rw [if_neg hbx]
      unfold consume_decimal
      rw [← hfl, hcw]
      exact hne

theorem findFrom_some_lookup {cand : List Nat} :
    ∀ n k e, findFrom cand n = some (k, e) →
      entityLookup (cand.take k) = some e := by
  intro n
  induction n with
  | zero => intro k e h; simp [findFrom] at h
  | succ n ih =>
    intro k e h
    simp only [findFrom] at h
    split_ifs at h with hmin
    cases hl : entityLookup (cand.take (n + 1)) with
    | some e' =>
      rw [hl] at h
      obtain ⟨rfl, rfl⟩ : n + 1 = k ∧ e' = e := by simpa using h
      exact hl
    | none =>
      rw [hl] at h
      exact ih k e h

theorem namedCandidate_flatEnc {cs : List Nat} (hsc : ∀ c ∈ cs, ScalarValue c) :
    ∃ cs2, (namedCandidate (flatEnc cs)).2 = flatEnc cs2 ∧
      (∀ c ∈ cs2, ScalarValue c) ∧ cs2.length ≤ cs.length ∧
      (∀ b ∈ (namedCandidate (flatEnc cs)).1, b < 0x80) := by
  obtain ⟨cs1, cs2, rfl, hcw, hmem⟩ :=
    consumeWhile_flatEnc is_alnum
      (fun x h => by simp [is_alnum, decide_eq_true_eq] at h; omega)
      cs hsc
  unfold namedCandidate consume_alphanumeric
  rw [hcw]
  dsimp only
  split_ifs with hh
  · obtain ⟨cs2', rfl, hfl⟩ :=
      @flatEnc_head_ascii cs2 (fun x hx => hsc x (by simp [hx]))
        59 (by omega) hh
    refine ⟨cs2', ?_, ?_, ?_, ?_⟩
    · rw [hfl]
      simp
    · exact fun x hx => hsc x (by simp [hx])
    · simp only [List.length_append, List.length_cons]
      omega
    · intro b hb
      rcases List.mem_cons.mp hb with rfl | hb
      · omega
      · rcases List.mem_append.mp hb with hb | hb
        · exact (hmem b hb).2
        · simp at hb; omega
  · refine ⟨cs2, rfl, fun x hx => hsc x (by simp [hx]), by simp, ?_⟩
    intro b hb
    rcases List.mem_cons.mp hb with rfl | hb
    · omega
    · exact (hmem b hb).2

theorem match_entity_flatEnc {cs : List Nat} (hsc : ∀ c ∈ cs, ScalarValue c) :
    ∃ out cs2, match_entity (flatEnc cs) = (out, flatEnc cs2) ∧ ValidUtf8 out ∧
      (∀ c ∈ cs2, ScalarValue c) ∧ cs2.length ≤ cs.length := by
  by_cases hh : (flatEnc cs).head? = some 35
  · obtain ⟨cs', rfl, hfl⟩ := flatEnc_head_ascii hsc (b := 35) (by omega) hh
    obtain ⟨out, cs2, hmne, hval, hsc2, hlen⟩ :=
      @match_numeric_entity_flatEnc cs'
        (fun x hx => hsc x (by simp [hx]))
    refine ⟨out, cs2, ?_, hval, hsc2, by simp; omega⟩
    unfold match_entity
    rw [if_pos hh, hfl]
    simpa using hmne
  · obtain ⟨cs2, h2, hsc2, hlen, hcand⟩ := namedCandidate_flatEnc hsc
    unfold match_entity
    rw [if_neg hh]
    split_ifs with hshort
    · refine ⟨(namedCandidate (flatEnc cs)).1, cs2, ?_,
        validUtf8_ascii hcand, hsc2, hlen⟩
      rw [← h2]
    · cases hf : findFrom (namedCandidate (flatEnc cs)).1
          (min (namedCandidate (flatEnc cs)).1.length ENTITY_MAX_LENGTH) with
      | some p =>
        obtain ⟨k, e⟩ := p
        refine ⟨e ++ (namedCandidate (flatEnc cs)).1.drop k, cs2, ?_, ?_, hsc2, hlen⟩
        · rw [← h2]
        · refine validUtf8_append (entityLookup_valid (findFrom_some_lookup _ k e hf)) ?_
          exact validUtf8_ascii fun b hb => hcand b (List.mem_of_mem_drop hb)
      | none =>
        refine ⟨(namedCandidate (flatEnc cs)).1, cs2, ?_,
          validUtf8_ascii hcand, hsc2, hlen⟩
        rw [← h2]

/-- Core safety property: on a valid UTF-8 input, the byte transformation of
`unescape` produces valid UTF-8 (so the final `.unwrap()` cannot panic). -/
theorem unescape_bytes_valid_aux :
    ∀ n cs, cs.length ≤ n → (∀ c ∈ cs, ScalarValue c) →
      ValidUtf8 (unescape_bytes (flatEnc cs)) := by
  intro n
  induction n with
  | zero =>
    intro cs h _
    obtain rfl := List.length_eq_zero.mp (Nat.le_zero.mp h)
    exact ⟨[], by simp, rfl⟩
  | succ n ih =>
    intro cs hlen hsc
    match cs with
    | [] => exact ⟨[], by simp, rfl⟩
    | c :: cs' =>
      simp only [List.length_cons, Nat.succ_le_succ_iff] at hlen
      by_cases hc : c = 38
      · subst hc
        have he : flatEnc (38 :: cs') = 38 :: flatEnc cs' := by
          simp [flatEnc, utf8encode_ascii (by omega : (38:Nat) < 0x80)]
        rw [he, unescape_bytes_amp]
        obtain ⟨out, cs2, hme, hval, hsc2, hl2⟩ :=
          @match_entity_flatEnc cs' (fun x hx => hsc x (by simp [hx]))
        rw [hme]
        exact validUtf8_append hval (ih cs2 (by omega) hsc2)
      · by_cases hlt : c < 0x80
        · have he : flatEnc (c :: cs') = c :: flatEnc cs' := by
            simp [flatEnc, utf8encode_ascii hlt]
          rw [he, unescape_bytes_cons hc]
          rw [show c :: unescape_bytes (flatEnc cs') =
            [c] ++ unescape_bytes (flatEnc cs') from rfl]
          refine validUtf8_append
            (validUtf8_ascii ?_)
            (ih cs' hlen (fun x hx => hsc x (by simp [hx])))
          intro b hb
          simp at hb
          omega
        · have hge : ∀ b ∈ utf8encode c, b ≠ 38 := by
            intro b hb
            have := utf8encode_all_ge (c := c) (by omega) b hb
            omega
          show ValidUtf8 (unescape_bytes (utf8encode c ++ flatEnc cs'))
          rw [unescape_bytes_ascii_run hge]
          exact validUtf8_append (validUtf8_encode (hsc c (by simp)))
            (ih cs' hlen (fun x hx => hsc x (by simp [hx])))

/-! ## Claim C1 -/

/-- C1 (counterexample): the claim says `unescape` is total over *every*
byte sequence, including ones that are not valid UTF-8.  It is not: the
input `[0xFF]` is copied verbatim into the output buffer and the final
`String::from_utf8(buffer).unwrap()` panics (modelled as `none`). -/
theorem c1_counterexample_unescape_panics_on_invalid :
    unescape [255] = none := by decide

/-- C1 (amended): for every input byte sequence that is valid UTF-8,
`unescape` returns a defined output without failing, and that output is
valid UTF-8. -/
theorem c1_unescape_total_on_valid_utf8 (l : List Nat)
    (h : utf8Valid l = true) :
    ∃ out, unescape l = some out ∧ utf8Valid out = true := by
  obtain ⟨cs, hsc, rfl⟩ := utf8Valid_valid h
  have hval : ValidUtf8 (unescape_bytes (flatEnc cs)) :=
    unescape_bytes_valid_aux cs.length cs le_rfl hsc
  have hv : utf8Valid (unescape_bytes (flatEnc cs)) = true :=
    valid_utf8Valid hval
  refine ⟨unescape_bytes (flatEnc cs), ?_, hv⟩
  unfold unescape string_from_utf8
  rw [if_pos hv]

/-- C1 (witness): the amended theorem applied at the concrete valid UTF-8
input `"a&#0;"`. -/
theorem c1_witness :
    utf8Valid [97, 38, 35, 48, 59] = true ∧
      ∃ out, unescape [97, 38, 35, 48, 59] = some out ∧ utf8Valid out = true :=
  ⟨by decide, c1_unescape_total_on_valid_utf8 [97, 38, 35, 48, 59] (by decide)⟩

/-! ## Escape-side lemmas -/

theorem escapeRun_isSome {chars : List Nat}
    (hch : ∀ c ∈ chars, (map_u8 c).isSome = true) :
    ∀ l, (escapeRun chars l).isSome = true := by
  intro l
  induction l with
  | nil => rfl
  | cons c rest ih =>
    simp only [escapeRun]
    cases hs : escapeStep chars c with
    | none =>
      exfalso
      unfold escapeStep at hs
      split_ifs at hs with hc
      have := hch c hc
      rw [hs] at this
      simp at this
    | some e =>
      cases hr : escapeRun chars rest with
      | none => rw [hr] at ih; simp at ih
      | some out => simp

theorem escapeRun_agree {base extra : List Nat} :
    ∀ l : List Nat, (∀ c ∈ l, c ∉ extra) →
      escapeRun (base ++ extra) l = escapeRun base l := by
  intro l
  induction l with
  | nil => intro _; rfl
  | cons c rest ih =>
    intro hl
    have hstep : escapeStep (base ++ extra) c = escapeStep base c := by
      unfold escapeStep
      by_cases hc : c ∈ base
      · rw [if_pos (List.mem_append_left extra hc), if_pos hc]
      · have hna : c ∉ base ++ extra := by
          intro hmem
          rcases List.mem_append.mp hmem with h | h
          · exact hc h
          · exact hl c (by simp) h
        rw [if_neg hna, if_neg hc]
    simp only [escapeRun, hstep, ih (fun x hx => hl x (by simp [hx]))]

theorem escapeRun_skip {chars : List Nat} {bs : List Nat}
    (h : ∀ b ∈ bs, b ∉ chars) :
    ∀ t, escapeRun chars (bs ++ t) = (escapeRun chars t).map (bs ++ ·) := by
  induction bs with
  | nil =>
    intro t
    simp only [List.nil_append]
    cases escapeRun chars t <;> simp
  | cons b bs ih =>
    intro t
    have hstep : escapeStep chars b = some [b] := by
      unfold escapeStep
      rw [if_neg (h b (by simp))]
    rw [List.cons_append]
    simp only [escapeRun, hstep, ih (fun x hx => h x (by simp [hx])) t]
    cases escapeRun chars t <;> simp

theorem escapeStep_text_ascii {c : Nat} (hc : c < 0x80) :
    ∃ e, escapeStep [38, 60, 62] c = some e ∧ ∀ b ∈ e, b < 0x80 := by
  unfold escapeStep
  split_ifs with hm
  · have h3 : c = 38 ∨ c = 60 ∨ c = 62 := by simpa using hm
    rcases h3 with rfl | rfl | rfl
    · exact ⟨_, rfl, by decide⟩
    · exact ⟨_, rfl, by decide⟩
    · exact ⟨_, rfl, by decide⟩
  · refine ⟨[c], rfl, ?_⟩
    intro b hb
    simp at hb
    omega

theorem escapeRun_text_valid :
    ∀ cs : List Nat, (∀ c ∈ cs, ScalarValue c) →
      ∃ es, escapeRun [38, 60, 62] (flatEnc cs) = some es ∧ ValidUtf8 es := by
  intro cs
  induction cs with
  | nil => exact fun _ => ⟨[], rfl, ⟨[], by simp, rfl⟩⟩
  | cons c cs' ih =>
    intro hsc
    obtain ⟨es', hrun', hval'⟩ := ih (fun x hx => hsc x (by simp [hx]))
    by_cases hlt : c < 0x80
    · obtain ⟨e, hstep, hascii⟩ := escapeStep_text_ascii hlt
      refine ⟨e ++ es', ?_, validUtf8_append (validUtf8_ascii hascii) hval'⟩
      have he : flatEnc (c :: cs') = c :: flatEnc cs' := by
        simp [flatEnc, utf8encode_ascii hlt]
      rw [he]
      simp only [escapeRun, hstep, hrun']
    · have hmem : ∀ b ∈ utf8encode c, b ∉ ([38, 60, 62] : List Nat) := by
        intro b hb hbm
        have := utf8encode_all_ge (c := c) (by omega) b hb
        simp at hbm
        omega
      refine ⟨utf8encode c ++ es', ?_,
        validUtf8_append (validUtf8_encode (hsc c (by simp))) hval'⟩
      show escapeRun [38, 60, 62] (utf8encode c ++ flatEnc cs') = _
      rw [escapeRun_skip hmem, hrun']
      rfl

/-! ### Concrete entity evaluations used by the round trip -/

theorem match_entity_amp (t : List Nat) :
    match_entity (97 :: 109 :: 112 :: 59 :: t) = ([38], t) := rfl

theorem match_entity_lt (t : List Nat) :
    match_entity (108 :: 116 :: 59 :: t) = ([60], t) := rfl

theorem match_entity_gt (t : List Nat) :
    match_entity (103 :: 116 :: 59 :: t) = ([62], t) := rfl

/-- Byte-level round trip: decoding the escape of any byte sequence
reproduces it. -/
theorem escapeRun_text_roundtrip :
    ∀ l es : List Nat, escapeRun [38, 60, 62] l = some es →
      unescape_bytes es = l := by
  intro l
  induction l with
  | nil =>
    intro es h
    injection h with h
    rw [← h]
    rfl
  | cons c rest ih =>
    intro es h
    simp only [escapeRun] at h
    by_cases h38 : c = 38
    · subst h38
      rw [show escapeStep [38, 60, 62] 38 = some [38, 97, 109, 112, 59]
        from rfl] at h
      cases hr : escapeRun [38, 60, 62] rest with
      | none => rw [hr] at h; exact absurd h (by simp)
      | some out =>
        rw [hr] at h
        obtain rfl : [38, 97, 109, 112, 59] ++ out = es := by simpa using h
        rw [show ([38, 97, 109, 112, 59] ++ out : List Nat) =
          38 :: (97 :: 109 :: 112 :: 59 :: out) from rfl]
        rw [unescape_bytes_amp, match_entity_amp, ih out hr]
        rfl
    · by_cases h60 : c = 60
      · subst h60
        rw [show escapeStep [38, 60, 62] 60 = some [38, 108, 116, 59]
          from rfl] at h
        cases hr : escapeRun [38, 60, 62] rest with
        | none => rw [hr] at h; exact absurd h (by simp)
        | some out =>
          rw [hr] at h
          obtain rfl : [38, 108, 116, 59] ++ out = es := by simpa using h
          rw [show ([38, 108, 116, 59] ++ out : List Nat) =
            38 :: (108 :: 116 :: 59 :: out) from rfl]
          rw [unescape_bytes_amp, match_entity_lt, ih out hr]
          rfl
      · by_cases h62 : c = 62
        · subst h62
          rw [show escapeStep [38, 60, 62] 62 = some [38, 103, 116, 59]
            from rfl] at h
          cases hr : escapeRun [38, 60, 62] rest with
          | none => rw [hr] at h; exact absurd h (by simp)
          | some out =>
            rw [hr] at h
            obtain rfl : [38, 103, 116, 59] ++ out = es := by simpa using h
            rw [show ([38, 103, 116, 59] ++ out : List Nat) =
              38 :: (103 :: 116 :: 59 :: out) from rfl]
            rw [unescape_bytes_amp, match_entity_gt, ih out hr]
            rfl
        · have hstep : escapeStep [38, 60, 62] c = some [c] := by
            unfold escapeStep
            rw [if_neg (by simp [h38, h60, h62])]
          rw [hstep] at h
          cases hr : escapeRun [38, 60, 62] rest with
          | none => rw [hr] at h; exact absurd h (by simp)
          | some out =>
            rw [hr] at h
            obtain rfl : [c] ++ out = es := by simpa using h
            rw [show ([c] ++ out : List Nat) = c :: out from rfl]
            rw [unescape_bytes_cons h38, ih out hr]

/-! ## Claim C2 -/

/-- C2: for every valid UTF-8 input `s`, escaping succeeds with some output
`es` and `unescape es = s` — the round trip reproduces the original.  (This
holds for arbitrary valid UTF-8 `s`; the claim's additional "no
pre-existing entity-like substrings" hypothesis is not needed, because
every `&` in the escaped text is immediately followed by `amp;`, so the
candidate the decoder forms is always exactly `&amp;`.) -/
theorem c2_roundtrip (s : List Nat) (h : utf8Valid s = true) :
    ∃ es, escape_text s = some es ∧ unescape es = some s := by
  obtain ⟨cs, hsc, rfl⟩ := utf8Valid_valid h
  obtain ⟨es, hrun, hval⟩ := escapeRun_text_valid cs hsc
  refine ⟨es, ?_, ?_⟩
  · unfold escape_text
    rw [hrun]
    show string_from_utf8 es = some es
    unfold string_from_utf8
    rw [if_pos (valid_utf8Valid hval)]
  · unfold unescape
    rw [escapeRun_text_roundtrip (flatEnc cs) es hrun]
    unfold string_from_utf8
    rw [if_pos h]

/-- C2 (witness): the round trip at the concrete input `"a&b"`. -/
theorem c2_witness :
    utf8Valid [97, 38, 98] = true ∧
      ∃ es, escape_text [97, 38, 98] = some es ∧
        unescape es = some [97, 38, 98] :=
  ⟨by decide, c2_roundtrip [97, 38, 98] (by decide)⟩

/-! ## Claim C9 -/

/-- C9: the `panic!` branch of `map_u8` is unreachable from the three
public escape functions: the escape loop (which calls `map_u8` only on
bytes of its active substitution set) never produces the panic marker
`none`, for any input and for each of the three character sets. -/
theorem c9_map_u8_panic_unreachable (l : List Nat) :
    (escapeRun [38, 60, 62] l).isSome = true ∧
      (escapeRun [38, 60, 62, 34] l).isSome = true ∧
      (escapeRun [38, 60, 62, 34, 39] l).isSome = true :=
  ⟨escapeRun_isSome (by decide) l, escapeRun_isSome (by decide) l,
    escapeRun_isSome (by decide) l⟩

/-! ## Claim C10 -/

/-- C10: the three escape variants agree away from their extra characters:
without a double quote, `escape_attribute` agrees with `escape_text`;
without both kinds of quote, all three agree. -/
theorem c10_escape_variants_agree (l : List Nat) :
    (34 ∉ l → escape_attribute l = escape_text l) ∧
      (34 ∉ l → 39 ∉ l →
        escape_all_quotes l = escape_attribute l ∧
          escape_attribute l = escape_text l) := by
  constructor
  · intro h34
    unfold escape_attribute escape_text
    rw [show ([38, 60, 62, 34] : List Nat) = [38, 60, 62] ++ [34] from rfl,
      escapeRun_agree l (by intro c hc; simp; intro h; exact h34 (h ▸ hc))]
  · intro h34 h39
    constructor
    · unfold escape_all_quotes escape_attribute
      rw [show ([38, 60, 62, 34, 39] : List Nat) = [38, 60, 62, 34] ++ [39]
        from rfl,
        escapeRun_agree l (by intro c hc; simp; intro h; exact h39 (h ▸ hc))]
    · unfold escape_attribute escape_text
      rw [show ([38, 60, 62, 34] : List Nat) = [38, 60, 62] ++ [34] from rfl,
        escapeRun_agree l (by intro c hc; simp; intro h; exact h34 (h ▸ hc))]

/-- C10 (witness): the agreement at the concrete input `"a"`. -/
theorem c10_witness :
    escape_attribute [97] = escape_text [97] ∧
      escape_all_quotes [97] = escape_attribute [97] :=
  ⟨(c10_escape_variants_agree [97]).1 (by decide),
    ((c10_escape_variants_agree [97]).2 (by decide) (by decide)).1⟩

/-! ## Symbolic execution of decimal numeric references -/

/-- A decimal reference body `ds` terminated by `;` resolves through
`match_numeric_entity` to the `numeric_finish` of its parse. -/
theorem match_numeric_decimal {ds : List Nat} (hne : ds ≠ [])
    (hds : ∀ d ∈ ds, is_dec_digit d = true) (tail : List Nat) :
    match_numeric_entity (ds ++ 59 :: tail) =
      numeric_finish ([38, 35] ++ ds ++ [59]) (parse_u32 10 ds) tail := by
  match ds with
  | [] => exact absurd rfl hne
  | d :: ds' =>
    have hd := hds d (by simp)
    simp only [is_dec_digit, decide_eq_true_eq] at hd
    rw [List.cons_append]
    simp only [match_numeric_entity]
    rw [if_neg (by omega)]
    have hcd : consume_decimal (d :: (ds' ++ 59 :: tail)) =
        (d :: ds', 59 :: tail) := by
      show consumeWhile is_dec_digit ((d :: ds') ++ 59 :: tail) = _
      exact consumeWhile_sat is_dec_digit hds _ (Or.inl ⟨rfl, by decide⟩)
    rw [hcd]
    unfold numeric_end
    rw [if_pos (show ((d :: ds', 59 :: tail) :
      List Nat × List Nat).2.head? = some 59 from rfl)]
    simp [List.append_assoc]

theorem match_entity_numeric (t : List Nat) :
    match_entity (35 :: t) = match_numeric_entity t := by
  unfold match_entity
  rw [if_pos (show (35 :: t).head? = some 35 from rfl)]
  rfl

/-- Driving the full scan loop over a single decimal reference. -/
theorem unescape_bytes_decimal {ds : List Nat} (hne : ds ≠ [])
    (hds : ∀ d ∈ ds, is_dec_digit d = true) :
    unescape_bytes (38 :: 35 :: (ds ++ [59])) =
      (numeric_finish ([38, 35] ++ ds ++ [59]) (parse_u32 10 ds) []).1 := by
  rw [unescape_bytes_amp, match_entity_numeric,
    show (ds ++ [59] : List Nat) = ds ++ 59 :: [] from rfl,
    match_numeric_decimal hne hds [], numeric_finish_snd]
  simp [unescape_bytes_nil]

theorem parse_u32_of_digitsVal {ds : List Nat} {n : Nat} (hne : ds ≠ [])
    (hv : digitsValGo 10 0 ds = some n) (hlt : n ≤ 0xFFFFFFFF) :
    parse_u32 10 ds = some n := by
  unfold parse_u32
  rw [if_neg (by simpa using hne), hv]
  show (if n ≤ 0xFFFFFFFF then some n else none) = some n
  rw [if_pos hlt]

/-! ## The correction table on specific ranges -/

theorem correct_surrogate {n : Nat} (h1 : 0xD800 ≤ n) (h2 : n ≤ 0xDFFF) :
    correct_numeric_entity n = some (utf8encode 0xFFFD) := by
  unfold correct_numeric_entity
  rw [if_neg (by omega),
    if_neg (by simp only [is_outside_range, decide_eq_true_eq]; omega),
    if_pos (by simp only [is_surrogate, decide_eq_true_eq]; omega)]
  rfl

theorem correct_outside {n : Nat} (h : 0x10FFFF < n) :
    correct_numeric_entity n = some (utf8encode 0xFFFD) := by
  unfold correct_numeric_entity
  rw [if_neg (by omega),
    if_pos (by simp only [is_outside_range, decide_eq_true_eq]; omega)]
  rfl

theorem correct_control_none {n : Nat}
    (h : n = 13 ∨ ((n ≤ 0x1F ∨ (0x7F ≤ n ∧ n ≤ 0x9F)) ∧ n ≠ 0 ∧ n ≠ 9 ∧
      n ≠ 10 ∧ n ≠ 12 ∧ legacyLookup n = none)) :
    correct_numeric_entity n = none := by
  rcases h with rfl | ⟨hctl, h0, h9, h10, h12, hleg⟩
  · decide
  · unfold correct_numeric_entity
    rw [if_neg h0,
      if_neg (by simp only [is_outside_range, decide_eq_true_eq]; omega),
      if_neg (by simp only [is_surrogate, decide_eq_true_eq]; omega),
      if_neg (by simp only [is_noncharacter, decide_eq_true_eq]; omega),
      hleg]
    by_cases h13 : n = 13
    · rw [if_pos h13]
    · rw [if_neg h13,
        if_neg (by simp only [is_ascii_whitespace, decide_eq_true_eq]; omega),
        if_pos (by simp only [is_control, decide_eq_true_eq]; omega)]

theorem correct_whitespace {n : Nat} (h : n = 9 ∨ n = 10 ∨ n = 12 ∨ n = 32) :
    correct_numeric_entity n = some [n] := by
  rcases h with rfl | rfl | rfl | rfl <;> decide

/-! ## Claim C4 -/

/-- C4: `unescape("&#0;")` is U+FFFD; every decimal reference whose parsed
u32 value is a surrogate (`0xD800..=0xDFFF`) or lies above `0x10FFFF`
decodes to U+FFFD.  (The spec's data model parses the digits into an
unsigned 32-bit value, hence the `n ≤ u32::MAX` bound: digit strings
overflowing `u32` fail to parse and fall back to literal text, per the
spec's own step 5.) -/
theorem c4_numeric_correction_invariant :
    unescape [38, 35, 48, 59] = some (utf8encode 0xFFFD) ∧
      (∀ ds n, ds ≠ [] → (∀ d ∈ ds, is_dec_digit d = true) →
        digitsValGo 10 0 ds = some n →
        ((0xD800 ≤ n ∧ n ≤ 0xDFFF) ∨ (0x10FFFF < n ∧ n ≤ 0xFFFFFFFF)) →
        unescape ([38, 35] ++ (ds ++ [59])) = some (utf8encode 0xFFFD)) := by
  constructor
  · decide
  · intro ds n hne hds hv hr
    have hp : parse_u32 10 ds = some n :=
      parse_u32_of_digitsVal hne hv (by omega)
    have hc : correct_numeric_entity n = some (utf8encode 0xFFFD) := by
      rcases hr with ⟨h1, h2⟩ | ⟨h1, _⟩
      · exact correct_surrogate h1 h2
      · exact correct_outside h1
    unfold unescape
    rw [show ([38, 35] ++ (ds ++ [59]) : List Nat) =
      38 :: 35 :: (ds ++ [59]) from rfl]
    rw [unescape_bytes_decimal hne hds, hp]
    simp only [numeric_finish]
    rw [hc]
    show string_from_utf8 (utf8encode 0xFFFD) = some (utf8encode 0xFFFD)
    decide

/-- C4 (witness): the theorem applied at the surrogate value 55296
(`0xD800`), spelled `"&#55296;"`. -/
theorem c4_witness :
    ([53, 53, 50, 57, 54] ≠ ([] : List Nat)) ∧
      (∀ d ∈ ([53, 53, 50, 57, 54] : List Nat), is_dec_digit d = true) ∧
      digitsValGo 10 0 [53, 53, 50, 57, 54] = some 55296 ∧
      ((0xD800 ≤ 55296 ∧ 55296 ≤ 0xDFFF) ∨
        (0x10FFFF < 55296 ∧ 55296 ≤ 0xFFFFFFFF)) ∧
      unescape ([38, 35] ++ ([53, 53, 50, 57, 54] ++ [59])) =
        some (utf8encode 0xFFFD) :=
  ⟨by decide, by decide, by decide, by decide,
    c4_numeric_correction_invariant.2 [53, 53, 50, 57, 54] 55296
      (by decide) (by decide) (by decide) (by decide)⟩

/-! ## Claim C6 -/

/-- C6: the legacy Windows-1252 correction has exactly 27 fixed entries,
each in `0x80..=0x9F` and corrected by the decoder to its mapped scalar
(e.g. `0x80` to the euro sign, `0x95` to the bullet); and the scenario
`unescape("&#x95;&#149;&#x2022;•") = "••••"` holds end to end. -/
theorem c6_legacy_windows1252 :
    legacyTable.length = 27 ∧
      (∀ p ∈ legacyTable, 0x80 ≤ p.1 ∧ p.1 ≤ 0x9F ∧
        correct_numeric_entity p.1 = some (utf8encode p.2)) ∧
      unescape [38, 35, 120, 57, 53, 59, 38, 35, 49, 52, 57, 59,
          38, 35, 120, 50, 48, 50, 50, 59, 226, 128, 162] =
        some [226, 128, 162, 226, 128, 162, 226, 128, 162, 226, 128, 162] :=
  ⟨by decide, by decide, by decide⟩

/-- C6 (witness): the per-entry clause at the bullet entry `0x95 → 0x2022`. -/
theorem c6_witness :
    ((0x95, 0x2022) ∈ legacyTable) ∧
      (0x80 ≤ (0x95 : Nat) ∧ (0x95 : Nat) ≤ 0x9F ∧
        correct_numeric_entity 0x95 = some (utf8encode 0x2022)) :=
  ⟨by decide, c6_legacy_windows1252.2.1 (0x95, 0x2022) (by decide)⟩

/-! ## Claim C7 -/

/-- C7 (counterexample): the claim as stated says any value in
`0x00..=0x1F` without a legacy mapping passes through literally; value 9
(`"&#9;"`) is in that range and has no legacy mapping, yet the decoder
emits the tab character itself, not the literal reference text. -/
theorem c7_counterexample_tab_not_literal :
    ¬(unescape [38, 35, 57, 59] = some [38, 35, 57, 59]) := by decide

/-- C7 (amended): a decimal reference whose value is exactly `0x0D`, or in
the control ranges `0x00..=0x1F`/`0x7F..=0x9F` but not `0` and not one of
the whitespace values `0x09/0x0A/0x0C` and without a legacy mapping,
receives no correction and its source bytes pass through literally; a
value in `{0x09, 0x0A, 0x0C, 0x20}` is emitted as the scalar value itself
(e.g. `unescape("&#x20") = " "`). -/
theorem c7_control_and_whitespace :
    (∀ ds n, ds ≠ [] → (∀ d ∈ ds, is_dec_digit d = true) →
      digitsValGo 10 0 ds = some n →
      (n = 13 ∨ ((n ≤ 0x1F ∨ (0x7F ≤ n ∧ n ≤ 0x9F)) ∧ n ≠ 0 ∧ n ≠ 9 ∧
        n ≠ 10 ∧ n ≠ 12 ∧ legacyLookup n = none)) →
      unescape ([38, 35] ++ (ds ++ [59])) =
        some ([38, 35] ++ (ds ++ [59]))) ∧
    (∀ ds n, ds ≠ [] → (∀ d ∈ ds, is_dec_digit d = true) →
      digitsValGo 10 0 ds = some n → (n = 9 ∨ n = 10 ∨ n = 12 ∨ n = 32) →
      unescape ([38, 35] ++ (ds ++ [59])) = some [n]) ∧
    unescape [38, 35, 120, 50, 48] = some [32] := by
  refine ⟨?_, ?_, by decide⟩
  · intro ds n hne hds hv hr
    have hp : parse_u32 10 ds = some n :=
      parse_u32_of_digitsVal hne hv (by rcases hr with rfl | ⟨h, _⟩ <;> omega)
    have hv8 : utf8Valid ([38, 35] ++ ds ++ [59]) = true := by
      refine valid_utf8Valid (validUtf8_ascii ?_)
      intro b hb
      rcases List.mem_append.mp hb with hb | hb
      · rcases List.mem_append.mp hb with hb | hb
        · simp at hb; omega
        · have := hds b hb
          simp only [is_dec_digit, decide_eq_true_eq] at this
          omega
      · simp at hb; omega
    unfold unescape
    rw [show ([38, 35] ++ (ds ++ [59]) : List Nat) =
      38 :: 35 :: (ds ++ [59]) from rfl]
    rw [unescape_bytes_decimal hne hds, hp]
    simp only [numeric_finish]
    rw [correct_control_none hr]
    show string_from_utf8 ([38, 35] ++ ds ++ [59]) =
      some ([38, 35] ++ (ds ++ [59]))
    unfold string_from_utf8
    rw [if_pos hv8]
    simp [List.append_assoc]
  · intro ds n hne hds hv hr
    have hp : parse_u32 10 ds = some n :=
      parse_u32_of_digitsVal hne hv (by rcases hr with rfl | rfl | rfl | rfl <;> omega)
    unfold unescape
    rw [show ([38, 35] ++ (ds ++ [59]) : List Nat) =
      38 :: 35 :: (ds ++ [59]) from rfl]
    rw [unescape_bytes_decimal hne hds, hp]
    simp only [numeric_finish]
    rw [correct_whitespace hr]
    show string_from_utf8 [n] = some [n]
    rcases hr with rfl | rfl | rfl | rfl <;> decide

/-- C7 (witness): the literal-passthrough clause at value 13 (`"&#13;"`)
and the whitespace clause at value 9 (`"&#9;"`). -/
theorem c7_witness :
    (([49, 51] : List Nat) ≠ [] ∧ digitsValGo 10 0 [49, 51] = some 13 ∧
      unescape ([38, 35] ++ ([49, 51] ++ [59])) =
        some ([38, 35] ++ ([49, 51] ++ [59]))) ∧
    (digitsValGo 10 0 [57] = some 9 ∧
      unescape ([38, 35] ++ ([57] ++ [59])) = some [9]) :=
  ⟨⟨by decide, by decide,
      c7_control_and_whitespace.1 [49, 51] 13 (by decide) (by decide)
        (by decide) (by decide)⟩,
    ⟨by decide,
      c7_control_and_whitespace.2.1 [57] 9 (by decide) (by decide)
        (by decide) (by decide)⟩⟩

/-! ## Claim C3 -/

/-- C3 (counterexample): the claim says `unescape("&timesb") = "⊠"`.  The
code (and its own test `entity_char_is_prefix`, `src/unescape.rs` line 315)
decodes `"&timesb"` to `"×b"`: the table key spelled without a semicolon is
`&times`, so the longest match for the candidate `&timesb` is `&times`,
with `b` re-emitted as literal text. -/
theorem c3_counterexample_timesb :
    ¬(unescape [38, 116, 105, 109, 101, 115, 98] = some [226, 138, 160]) := by
  decide

/-- C3 (amended): `unescape("&times") = "×"`, `unescape("&timesa") = "×a"`,
`unescape("&timesb") = "×b"`, and the longer entity needs its semicolon:
`unescape("&timesb;") = "⊠"`. -/
theorem c3_missing_semicolon_and_greedy_match :
    unescape [38, 116, 105, 109, 101, 115] = some [195, 151] ∧
      unescape [38, 116, 105, 109, 101, 115, 97] = some [195, 151, 97] ∧
      unescape [38, 116, 105, 109, 101, 115, 98] = some [195, 151, 98] ∧
      unescape [38, 116, 105, 109, 101, 115, 98, 59] = some [226, 138, 160] := by
  decide

/-! ## Claim C8 -/

theorem namedCandidate_append (l : List Nat) :
    ∃ x, (namedCandidate l).1 = 38 :: x ∧ x ++ (namedCandidate l).2 = l := by
  unfold namedCandidate
  split_ifs with hh
  · cases hr : (consume_alphanumeric l).2 with
    | nil => rw [hr] at hh; exact absurd hh (by simp)
    | cons a t =>
      rw [hr] at hh
      obtain rfl : a = 59 := by simpa using hh
      refine ⟨(consume_alphanumeric l).1 ++ [59], rfl, ?_⟩
      rw [List.append_assoc]
      simp only [List.cons_append, List.nil_append, List.tail_cons]
      rw [← hr]
      exact consumeWhile_append_snd is_alnum l
  · exact ⟨(consume_alphanumeric l).1, rfl, consumeWhile_append_snd is_alnum l⟩

theorem findFrom_eq_none {cand : List Nat} :
    ∀ n, (∀ k, k ≤ n → ENTITY_MIN_LENGTH ≤ k →
        entityLookup (cand.take k) = none) →
      findFrom cand n = none := by
  intro n
  induction n with
  | zero => intro _; rfl
  | succ n ih =>
    intro h
    simp only [findFrom]
    split_ifs with hmin
    · rfl
    · rw [h (n + 1) le_rfl (by omega)]
      exact ih fun k hk hmink => h k (by omega) hmink

theorem numeric_end_passthrough (best : List Nat) (number : Option Nat)
    (rest : List Nat) :
    (∃ n e, number = some n ∧ correct_numeric_entity n = some e ∧
      (numeric_end best number rest).1 = e) ∨
    (numeric_end best number rest).1 ++ (numeric_end best number rest).2 =
      best ++ rest := by
  unfold numeric_end
  split_ifs with hh
  · cases rest with
    | nil => simp at hh
    | cons a t =>
      obtain rfl : a = 59 := by simpa using hh
      simp only [List.tail_cons]
      cases number with
      | none =>
        right
        simp [numeric_finish, List.append_assoc]
      | some n =>
        cases hc : correct_numeric_entity n with
        | some e => exact Or.inl ⟨n, e, rfl, hc, by simp [numeric_finish, hc]⟩
        | none =>
          right
          simp [numeric_finish, hc, List.append_assoc]
  · cases number with
    | none => right; rfl
    | some n =>
      cases hc : correct_numeric_entity n with
      | some e => exact Or.inl ⟨n, e, rfl, hc, by simp [numeric_finish, hc]⟩
      | none =>
        right
        simp [numeric_finish, hc]

/-- Numeric references are never dropped: `match_numeric_entity` either
resolves to a correction's expansion, or re-emits `&#` together with every
byte it consumed, followed by the untouched remaining input. -/
theorem match_numeric_entity_passthrough (l : List Nat) :
    (∃ n e, correct_numeric_entity n = some e ∧
      (match_numeric_entity l).1 = e) ∨
    (match_numeric_entity l).1 ++ (match_numeric_entity l).2 =
      38 :: 35 :: l := by
  match l with
  | [] => right; rfl
  | c :: rest =>
    simp only [match_numeric_entity]
    split_ifs with hx
    · rcases numeric_end_passthrough ([38, 35, c] ++ (consume_hexadecimal rest).1)
          (parse_u32 16 (consume_hexadecimal rest).1)
          (consume_hexadecimal rest).2 with
        ⟨n, e, _, hc, hout⟩ | hpass
      · exact Or.inl ⟨n, e, hc, hout⟩
      · right
        rw [hpass, List.append_assoc]
        unfold consume_hexadecimal
        rw [consumeWhile_append_snd is_hex_digit rest]
        rfl
    · rcases numeric_end_passthrough ([38, 35] ++ (consume_decimal (c :: rest)).1)
          (parse_u32 10 (consume_decimal (c :: rest)).1)
          (consume_decimal (c :: rest)).2 with
        ⟨n, e, _, hc, hout⟩ | hpass
      · exact Or.inl ⟨n, e, hc, hout⟩
      · right
        rw [hpass, List.append_assoc]
        unfold consume_decimal
        rw [consumeWhile_append_snd is_dec_digit (c :: rest)]
        rfl

/-- C8: malformed or unrecognized references are never dropped:
`unescape("&")`, `unescape("&;")` and `unescape("&unknown;")` return their
input unchanged; in general whenever no table key matches any admissible
prefix of the named candidate, `match_entity` returns exactly the consumed
bytes (`&` plus the candidate) followed by the untouched remaining input;
every numeric reference either resolves to a correction's expansion or
likewise re-emits every consumed byte verbatim — exercised concretely on
the malformed numeric inputs `"&#"`, `"&#x"`, `"&#xZ;"`, the
u32-overflowing `"&#4294967296;"`, and the noncharacter fallback
`"&#xFDD0;"`. -/
theorem c8_never_dropped :
    unescape [38] = some [38] ∧
      unescape [38, 59] = some [38, 59] ∧
      unescape [38, 117, 110, 107, 110, 111, 119, 110, 59] =
        some [38, 117, 110, 107, 110, 111, 119, 110, 59] ∧
      (∀ l : List Nat, l.head? ≠ some 35 →
        (∀ k, k ≤ min (namedCandidate l).1.length ENTITY_MAX_LENGTH →
          ENTITY_MIN_LENGTH ≤ k →
          entityLookup ((namedCandidate l).1.take k) = none) →
        (match_entity l).1 ++ (match_entity l).2 = 38 :: l) ∧
      (∀ l : List Nat,
        (∃ n e, correct_numeric_entity n = some e ∧
          (match_numeric_entity l).1 = e) ∨
        (match_numeric_entity l).1 ++ (match_numeric_entity l).2 =
          38 :: 35 :: l) ∧
      unescape [38, 35] = some [38, 35] ∧
      unescape [38, 35, 120] = some [38, 35, 120] ∧
      unescape [38, 35, 120, 90, 59] = some [38, 35, 120, 90, 59] ∧
      unescape [38, 35, 52, 50, 57, 52, 57, 54, 55, 50, 57, 54, 59] =
        some [38, 35, 52, 50, 57, 52, 57, 54, 55, 50, 57, 54, 59] ∧
      unescape [38, 35, 120, 70, 68, 68, 48, 59] =
        some [38, 35, 120, 70, 68, 68, 48, 59] := by
  refine ⟨by decide, by decide, by decide, ?_, match_numeric_entity_passthrough,
    by decide, by decide, by decide, by decide, by decide⟩
  intro l hh hnone
  obtain ⟨x, hc1, hcat⟩ := namedCandidate_append l
  unfold match_entity
  rw [if_neg hh]
  split_ifs with hshort
  · rw [hc1]
    simp only [List.cons_append]
    rw [hcat]
  · rw [findFrom_eq_none _ hnone]
    rw [hc1]
    simp only [List.cons_append]
    rw [hcat]

/-- C8 (witness): the general clause applied at the unmatched candidate
`"unknown;"` (the input after `&`). -/
theorem c8_witness :
    (([117, 110, 107, 110, 111, 119, 110, 59] : List Nat).head? ≠ some 35) ∧
      (match_entity [117, 110, 107, 110, 111, 119, 110, 59]).1 ++
          (match_entity [117, 110, 107, 110, 111, 119, 110, 59]).2 =
        38 :: [117, 110, 107, 110, 111, 119, 110, 59] :=
  ⟨by decide,
    c8_never_dropped.2.2.2.1 [117, 110, 107, 110, 111, 119, 110, 59]
      (by decide) (by decide)⟩

/-! ## Claim C5 -/

/-- Admissible greedy-match length for a candidate, per the spec's words:
at least `MIN_LEN` and spelling a table key. -/
def specMatchPred (cand : List Nat) (k : Nat) : Prop :=
  ENTITY_MIN_LENGTH ≤ k ∧ (entityLookup (cand.take k)).isSome = true

instance (cand : List Nat) : DecidablePred (specMatchPred cand) := fun k => by
  unfold specMatchPred; infer_instance

/-- Modelled from the spec (§4.2 Named Reference Matcher): form the
candidate (leading `&`, maximal alphanumeric run, trailing `;` when
present); if it is shorter than `MIN_LEN` return it unchanged; otherwise
take the *largest* admissible `check_len` between `MIN_LEN` and
`min(candidate.length, MAX_LEN)` whose prefix is a table key, emit that
key's expansion followed by the candidate bytes beyond it, or the whole
candidate when no length matches. -/
def specNamedReferenceMatch (l : List Nat) : List Nat × List Nat :=
  if (namedCandidate l).1.length < ENTITY_MIN_LENGTH then namedCandidate l
  else
    match entityLookup ((namedCandidate l).1.take
        (Nat.findGreatest (specMatchPred (namedCandidate l).1)
          (min (namedCandidate l).1.length ENTITY_MAX_LENGTH))) with
    | some e =>
      (e ++ (namedCandidate l).1.drop
          (Nat.findGreatest (specMatchPred (namedCandidate l).1)
            (min (namedCandidate l).1.length ENTITY_MAX_LENGTH)),
        (namedCandidate l).2)
    | none => namedCandidate l

theorem findFrom_none_char {cand : List Nat} :
    ∀ n, findFrom cand n = none →
      ∀ k, k ≤ n → ENTITY_MIN_LENGTH ≤ k → entityLookup (cand.take k) = none := by
  intro n
  induction n with
  | zero =>
    intro _ k hk hmin
    have hM : ENTITY_MIN_LENGTH = 4 := rfl
    omega
  | succ n ih =>
    intro h k hk hmin
    simp only [findFrom] at h
    split_ifs at h with hsmall
    · have hM : ENTITY_MIN_LENGTH = 4 := rfl
      omega
    · cases hl : entityLookup (cand.take (n + 1)) with
      | some e' => rw [hl] at h; exact absurd h (by simp)
      | none =>
        rw [hl] at h
        rcases Nat.lt_or_ge k (n + 1) with hkn | hkn
        · exact ih h k (by omega) hmin
        · obtain rfl : k = n + 1 := by omega
          exact hl

theorem findFrom_some_char {cand : List Nat} :
    ∀ n k e, findFrom cand n = some (k, e) →
      ENTITY_MIN_LENGTH ≤ k ∧ k ≤ n ∧ entityLookup (cand.take k) = some e ∧
        ∀ j, k < j → j ≤ n → entityLookup (cand.take j) = none := by
  intro n
  induction n with
  | zero => intro k e h; simp [findFrom] at h
  | succ n ih =>
    intro k e h
    simp only [findFrom] at h
    split_ifs at h with hmin
    cases hl : entityLookup (cand.take (n + 1)) with
    | some e' =>
      rw [hl] at h
      obtain ⟨rfl, rfl⟩ : n + 1 = k ∧ e' = e := by simpa using h
      exact ⟨by omega, le_rfl, hl, fun j hj1 hj2 => by omega⟩
    | none =>
      rw [hl] at h
      obtain ⟨h1, h2, h3, h4⟩ := ih k e h
      refine ⟨h1, by omega, h3, ?_⟩
      intro j hj1 hj2
      rcases Nat.lt_or_ge j (n + 1) with hj | hj
      · exact h4 j hj1 (by omega)
      · obtain rfl : j = n + 1 := by omega
        exact hl

/-- C5: `match_entity` on a non-numeric reference implements exactly the
spec's greedy longest-match procedure. -/
theorem c5_matcher_refines_spec (l : List Nat) (hh : l.head? ≠ some 35) :
    match_entity l = specNamedReferenceMatch l := by
  unfold match_entity specNamedReferenceMatch
  rw [if_neg hh]
  split_ifs with hshort
  · rfl
  · cases hf : findFrom (namedCandidate l).1
        (min (namedCandidate l).1.length ENTITY_MAX_LENGTH) with
    | some p =>
      obtain ⟨k, e⟩ := p
      obtain ⟨hmin, hkN, hlook, hmax⟩ := findFrom_some_char _ k e hf
      have hK : Nat.findGreatest (specMatchPred (namedCandidate l).1)
          (min (namedCandidate l).1.length ENTITY_MAX_LENGTH) = k := by
        rw [Nat.findGreatest_eq_iff]
        refine ⟨hkN, fun _ => ⟨hmin, by rw [hlook]; rfl⟩, ?_⟩
        intro j hj1 hj2 hP
        obtain ⟨hPmin, hPsome⟩ := hP
        rw [hmax j hj1 hj2] at hPsome
        exact absurd hPsome (by simp)
      rw [hK, hlook]
    | none =>
      have hchar := findFrom_none_char _ hf
      have hK : Nat.findGreatest (specMatchPred (namedCandidate l).1)
          (min (namedCandidate l).1.length ENTITY_MAX_LENGTH) = 0 := by
        rw [Nat.findGreatest_eq_zero_iff]
        intro m hm0 hmN hP
        obtain ⟨hPmin, hPsome⟩ := hP
        rw [hchar m hmN hPmin] at hPsome
        exact absurd hPsome (by simp)
      rw [hK]
      simp only [List.take_zero]
      rfl

/-- C5 (witness): the refinement at the concrete non-numeric input
`"times"` (the bytes after `&`). -/
theorem c5_witness :
    (([116, 105, 109, 101, 115] : List Nat).head? ≠ some 35) ∧
      match_entity [116, 105, 109, 101, 115] =
        specNamedReferenceMatch [116, 105, 109, 101, 115] :=
  ⟨by decide, c5_matcher_refines_spec [116, 105, 109, 101, 115] (by decide)⟩

end Htmlize
